import Mathlib

/-!
Verification of the `pierrec/construct` configuration library against its
natural-language specification.

The Go sources are shallowly embedded: strings are `List Char`, Go maps are
association lists, reflection-driven traversals become recursive functions
over explicit tree datatypes.  Each definition mirrors one Go function and is
named after it where Lean allows.
-/

namespace Construct

/-- Strings, modelled as lists of runes (Go iterates strings rune-wise in all
the code modelled here). -/
abbrev Str := List Char

namespace structs

/-! ### internal/structs/csv.go and the Go `encoding/csv` reader/writer

`csvreadwriter` delegates to Go's `encoding/csv` with `Comma` set to the
configured separator.  The writer (`UseCRLF = false`) and the reader
(default options: no `LazyQuotes`, no `TrimLeadingSpace`, quote `"`)
are embedded below. -/

/-- Go `unicode.IsSpace`: the White_Space code points. -/
def goIsSpace (c : Char) : Bool :=
  let n := c.val
  (0x9 ≤ n && n ≤ 0xd) || n == 0x20 || n == 0x85 || n == 0xa0 ||
  n == 0x1680 || (0x2000 ≤ n && n ≤ 0x200a) || n == 0x2028 || n == 0x2029 ||
  n == 0x202f || n == 0x205f || n == 0x3000

/-- Go `encoding/csv.validDelim`: a usable `Comma` rune. -/
def validDelim (c : Char) : Bool :=
  c.val != 0 && c != '"' && c != '\r' && c != '\n' && c.val != 0xfffd

/-- Go `csv.Writer.fieldNeedsQuotes` (`UseCRLF = false`). -/
def fieldNeedsQuotes (sep : Char) (f : Str) : Bool :=
  if f = [] then false
  else if f = ['\\', '.'] then true
  else if f.contains sep || f.contains '"' || f.contains '\r' || f.contains '\n' then true
  else goIsSpace f.headI

/-- Body of a quoted field as emitted by `csv.Writer.Write` with
`UseCRLF = false`: quotes are doubled, every other rune is copied. -/
def quoteBody : Str → Str
  | [] => []
  | c :: rest => if c = '"' then '"' :: '"' :: quoteBody rest else c :: quoteBody rest

/-- One field as emitted by `csv.Writer.Write`. -/
def writeField (sep : Char) (f : Str) : Str :=
  if fieldNeedsQuotes sep f then '"' :: quoteBody f ++ ['"'] else f

/-- The field loop of `csv.Writer.Write`: the delimiter is written before
every field but the first. -/
def joinFields (sep : Char) : List Str → Str
  | [] => []
  | [f] => writeField sep f
  | f :: fs => writeField sep f ++ sep :: joinFields sep fs

/-- Go `csv.Writer.Write` on one record (fields joined by `Comma`, record
terminated by a newline), given a valid delimiter. -/
def writeRecord (sep : Char) (fs : List Str) : Str :=
  joinFields sep fs ++ ['\n']

/-- `csvreadwriter.write`: zero components give the empty string, a single
component is returned verbatim, otherwise the CSV record is emitted and its
trailing newline removed. -/
def csvwrite (sep : Char) (s : List Str) : Except String Str :=
  match s with
  | [] => .ok []
  | [x] => .ok x
  | _ =>
    if validDelim sep then .ok (writeRecord sep s).dropLast
    else .error "csv: invalid field or comment delimiter"

/-- Errors of the embedded `encoding/csv` reader. -/
inductive CsvErr where
  | invalidDelim
  | bareQuote
  | quote
  | eof
  deriving DecidableEq, Repr

/-- `csv.Reader.readLine` rewrites a `\r\n` line ending into `\n`; applied to
the whole buffer this is a single left-to-right replacement of `\r\n` by
`\n` (every `\n` terminates a line). -/
def normalizeCRLF : Str → Str
  | [] => []
  | [c] => [c]
  | c :: c' :: rest =>
    if c = '\r' then
      if c' = '\n' then '\n' :: normalizeCRLF rest
      else c :: normalizeCRLF (c' :: rest)
    else c :: normalizeCRLF (c' :: rest)

/-- Reader, non-quoted field: runes up to the separator or end of line; a
quote inside is `ErrBareQuote` (no `LazyQuotes`).  Returns the field and
`some rest` when the record continues after a separator. -/
def parseUnquoted (sep : Char) (acc : Str) : Str → Except CsvErr (Str × Option Str)
  | [] => .ok (acc, none)
  | c :: rest =>
    if c = sep then .ok (acc, some rest)
    else if c = '\n' then .ok (acc, none)
    else if c = '"' then .error .bareQuote
    else parseUnquoted sep (acc ++ [c]) rest

/-- Reader, quoted field after the opening quote: `""` is a literal quote, a
closing quote must be followed by the separator, the end of the line or the
end of the data (`ErrQuote` otherwise); data ending inside the quotes is
`ErrQuote`. -/
def parseQuoted (sep : Char) (acc : Str) : Str → Except CsvErr (Str × Option Str)
  | [] => .error .quote
  | c :: rest =>
    if c = '"' then
      match rest with
      | [] => .ok (acc, none)
      | c' :: rest' =>
        if c' = '"' then parseQuoted sep (acc ++ ['"']) rest'
        else if c' = sep then .ok (acc, some rest')
        else if c' = '\n' then .ok (acc, none)
        else .error .quote
    else parseQuoted sep (acc ++ [c]) rest

/-- Reader, start of one field: a field opening with a quote is quoted,
anything else (including an empty remainder) is non-quoted. -/
def dispatchField (sep : Char) (s : Str) : Except CsvErr (Str × Option Str) :=
  match s with
  | c :: rest =>
    if c = '"' then parseQuoted sep [] rest else parseUnquoted sep [] (c :: rest)
  | [] => parseUnquoted sep [] []

/-- Reader, one record: fields in sequence.  The fuel bounds the number of
fields; `csvread` supplies enough for any input. -/
def parseFields (sep : Char) (fuel : Nat) (acc : List Str) (s : Str) :
    Except CsvErr (List Str) :=
  match fuel with
  | 0 => .error .eof
  | fuel + 1 =>
    match dispatchField sep s with
    | .error e => .error e
    | .ok (f, none) => .ok (acc ++ [f])
    | .ok (f, some r) => parseFields sep fuel (acc ++ [f]) r

/-- `csv.Reader.readRecord` after blank-line skipping: end of data without
any record is `io.EOF`, otherwise the fields of the first record. -/
def readRecord (sep : Char) (s : Str) : Except CsvErr (List Str) :=
  if s = [] then .error .eof
  else parseFields sep (s.length + 1) [] s

/-- `csvreadwriter.read`: the empty input gives the nil slice with no error;
otherwise one record is read by the Go csv reader (`\r\n` normalisation,
blank lines skipped, then `readRecord`). -/
def csvread (sep : Char) (s : Str) : Except CsvErr (List Str) :=
  if s = [] then .ok []
  else if !validDelim sep then .error .invalidDelim
  else readRecord sep ((normalizeCRLF s).dropWhile (· = '\n'))

end structs

/-! ### config.go: the reflected field tree and `config.buildKeys`

`structs.NewStruct` decomposes the target record into leaf fields and
embedded structs; for `buildKeys` only the external (post-rename) names,
the inline marks and the nesting matter. -/

/-- Go `strings.ToLower`, modelled rune-wise with `Char.toLower` (the two
agree on ASCII config names; Go's full Unicode case table is not
reproduced). -/
def goToLower (s : String) : String := String.mk (s.data.map Char.toLower)

/-- One entry of `StructStruct.Fields()`: a leaf config item, or an embedded
struct (`field.Embedded() != nil`) carrying its own field list and inline
mark. -/
inductive Field where
  | leaf (name : String)
  | group (name : String) (inlined : Bool) (children : List Field)

/-- `config.toName`: a leaf's flattened name under a section prefix. -/
def toName (gsep sect name : String) : String :=
  if sect = "" then name else sect ++ gsep ++ name

/-- `config.toSection`: the section prefix for an embedded struct; an inlined
struct contributes no path segment of its own. -/
def toSection (gsep sect : String) (inlined : Bool) (name : String) : String :=
  if inlined then sect
  else if sect = "" then name else sect ++ gsep ++ name

/-- Go map key lookup `_, ok := c.trans[lname]` on the association-list
model of `c.trans`. -/
def transHas (trans : List (String × String)) (k : String) : Bool :=
  trans.any (fun p => p.1 == k)

mutual
/-- `config.buildKeys`, body of the loop for a single field: a leaf's
lower-cased flattened name must be fresh in `c.trans` (`duplicate config
name` otherwise) and is recorded; an embedded struct is recursed into under
its section, errors being wrapped with the field name. -/
def buildKeysF (gsep sect : String) (trans : List (String × String)) :
    Field → Except String (List (String × String))
  | .leaf name =>
    let nm := toName gsep sect name
    let lname := goToLower nm
    if transHas trans lname then .error ("duplicate config name: " ++ lname)
    else .ok (trans ++ [(lname, nm)])
  | .group name inlined children =>
    match buildKeysL gsep (toSection gsep sect inlined name) trans children with
    | .error e => .error (name ++ ": " ++ e)
    | .ok t => .ok t

/-- `config.buildKeys`: the loop over a field list, threading `c.trans`. -/
def buildKeysL (gsep sect : String) (trans : List (String × String)) :
    List Field → Except String (List (String × String))
  | [] => .ok trans
  | f :: fs =>
    match buildKeysF gsep sect trans f with
    | .error e => .error e
    | .ok t => buildKeysL gsep sect t fs
end

mutual
/-- Specification-side flattening: the lower-cased flattened names of all
leaves of a field, in traversal order. -/
def flatNamesF (gsep sect : String) : Field → List String
  | .leaf name => [goToLower (toName gsep sect name)]
  | .group name inlined children =>
    flatNamesL gsep (toSection gsep sect inlined name) children

/-- Specification-side flattening of a field list. -/
def flatNamesL (gsep sect : String) : List Field → List String
  | [] => []
  | f :: fs => flatNamesF gsep sect f ++ flatNamesL gsep sect fs
end

/-! ### config.Load: the source-merge phases over the outstanding key set

`c.trans` maps the lower-cased flattened name of every leaf to its original
(untouched) name; each source phase of `config.Load` walks it.  The model is
for a flat record (no nesting) implementing `FromFlags`, `FromEnv` and
`FromIO`, with flags parsed successfully and no subcommand argument, so each
`fromNameAll`/`Lookup` resolves to the single original-case field name.
Field values are abstracted to integers. -/

/-- The record's field storage: original-case field name to current value. -/
abbrev FieldState := List (String × Int)

/-- `field.Set` through `Lookup`: replace the named field's value. -/
def setField (st : FieldState) (n : String) (v : Int) : FieldState :=
  st.map (fun p => if p.1 = n then (p.1, v) else p)

/-- Go `delete(m, k)` on the association-list model of `c.trans`: only an
entry whose key is exactly `k` is removed. -/
def transDelete (trans : List (String × String)) (k : String) :
    List (String × String) :=
  trans.filter (fun p => p.1 != k)

/-- `config.updateFlags` (the flags source): `pflag.Visit` walks only the
flags the user supplied — one flag per key of `c.trans`, registered under
the lower-cased flattened name — assigns each parsed value to its field and
removes the entry from `c.trans` by the flag's (lower-case) name.
`flagOf lname` is the parsed value of flag `lname` when it was supplied. -/
def updateFlags (flagOf : String → Option Int) (trans : List (String × String))
    (st : FieldState) : List (String × String) × FieldState :=
  (trans.map Prod.fst).foldl
    (fun acc lname =>
      match flagOf lname with
      | none => acc
      | some v =>
        match (acc.1.find? (fun p => p.1 == lname)).map Prod.snd with
        | none => acc
        | some orig => (transDelete acc.1 lname, setField acc.2 orig v))
    (trans, st)

/-- The `FromEnv` branch of `config.Load`: iterate over the values of
`c.trans` (the original-case names); for each, `EnvConfig` and
`os.LookupEnv` (composed into `envOf`) may yield a value, which is assigned
to the field, after which `delete(c.trans, name)` is executed with the
original-case `name` — although `c.trans` is keyed by lower-cased names. -/
def envPhase (envOf : String → Option Int) (trans : List (String × String))
    (st : FieldState) : List (String × String) × FieldState :=
  (trans.map Prod.snd).foldl
    (fun acc name =>
      match envOf name with
      | none => acc
      | some v => (transDelete acc.1 name, setField acc.2 name v))
    (trans, st)

/-- The `FromIO` merge branch of `config.Load` with a decoded store
(`cio != nil`): for every entry still in `c.trans`, a key the store lacks
receives the field's current value (for saving), otherwise the store's
value is assigned onto the field.  No entry is removed from `c.trans`.
`storeOf name` is the store's value under the field's key path, already
normalised by `structs.MarshalValue`. -/
def ioMergePhase (storeOf : String → Option Int)
    (trans : List (String × String)) (st : FieldState) : FieldState :=
  (trans.map Prod.snd).foldl
    (fun st name =>
      match storeOf name with
      | none => st
      | some v => setField st name v)
    st

/-- `config.Load` for a flat record with all three source capabilities:
build the key index (`buildKeys`), then apply command-line flags, the
environment, and the file store, in that order, sharing the outstanding set
`c.trans`.  Returns the final field state and the remaining outstanding
set. -/
def loadMerge (gsep : String) (defaults : FieldState)
    (flagOf envOf storeOf : String → Option Int) :
    Except String (FieldState × List (String × String)) :=
  match buildKeysL gsep "" [] (defaults.map (fun p => Field.leaf p.1)) with
  | .error e => .error e
  | .ok tr =>
    let p1 := updateFlags flagOf tr defaults
    let p2 := envPhase envOf p1.1 p1.2
    let st3 := ioMergePhase storeOf p2.1 p2.2
    .ok (st3, p2.1)

/-! ### config.go: the lifecycle sweep (`config.init`/`callUntil`) and
subcommand dispatch (`config.Load`'s deferred block) -/

/-- A struct type as seen by the lifecycle sweep and subcommand dispatch:
the external field name it is embedded under, whether an `InitConfig`
method exists for `Call`, whether the value implements `Config` and
`FromFlags`, the result of its `InitConfig` method, the inline mark, and
its embedded struct fields (plain fields have no methods and never match,
so only embedded structs are carried). -/
inductive RecS where
  | mk (name : String) (hasInit : Bool) (isConfig : Bool) (isFromFlags : Bool)
       (initErr : Option String) (inlined : Bool) (fields : List RecS)

def RecS.name : RecS → String
  | .mk n _ _ _ _ _ _ => n

def RecS.hasInit : RecS → Bool
  | .mk _ h _ _ _ _ _ => h

def RecS.isConfig : RecS → Bool
  | .mk _ _ c _ _ _ _ => c

def RecS.isFromFlags : RecS → Bool
  | .mk _ _ _ f _ _ _ => f

def RecS.initErr : RecS → Option String
  | .mk _ _ _ _ e _ _ => e

def RecS.inlined : RecS → Bool
  | .mk _ _ _ _ _ i _ => i

def RecS.fields : RecS → List RecS
  | .mk _ _ _ _ _ _ fs => fs

/-- `getCommand`: an embedded struct implementing both `Config` and
`FromFlags` is a subcommand. -/
def isCommand (r : RecS) : Bool := r.isConfig && r.isFromFlags

mutual
/-- `callUntil` specialised to `InitConfig`/`callInitConfig` as used by
`config.init`: call the struct's own `InitConfig` when present and stop on a
non-nil error; otherwise walk the embedded fields, skipping subcommands
(`getCommand`) and embedded structs not implementing `Config`.  Returns the
index paths of all structs whose `InitConfig` was invoked, in call order,
and the first error. -/
def sweepInit : RecS → List (List Nat) × Option String
  | .mk _nm hInit _isCfg _isFl iErr _inl flds =>
    if hInit && iErr.isSome then ([[]], iErr)
    else
      match sweepFields 0 flds with
      | (ps, e) => ((if hInit then [[]] else []) ++ ps, e)

/-- The field loop of `callUntil`, keeping track of field indices. -/
def sweepFields (i : Nat) : List RecS → List (List Nat) × Option String
  | [] => ([], none)
  | f :: fs =>
    if isCommand f then sweepFields (i + 1) fs
    else if !f.isConfig then sweepFields (i + 1) fs
    else
      match sweepInit f with
      | (ps, some err) => (ps.map (i :: ·), some err)
      | (ps, none) =>
        match sweepFields (i + 1) fs with
        | (qs, e') => (ps.map (i :: ·) ++ qs, e')
end

mutual
/-- `StructStruct.Lookup` with a single-segment path, over the fields list
with running index `i`: the first field that matches wins. -/
def lookup1 (i : Nat) : List RecS → String → Option (List Nat × RecS)
  | [], _ => none
  | f :: fs, n =>
    match lookup1Field i f n with
    | some res => some res
    | none => lookup1 (i + 1) fs n

/-- One step of `StructStruct.Lookup`: a non-inlined entry matches by exact
name equality; an inlined embedded struct is searched through transparently
(contributing its own index to the path). -/
def lookup1Field (i : Nat) : RecS → String → Option (List Nat × RecS)
  | .mk nm hInit isCfg isFl iErr inl flds, n =>
    if !inl then
      if nm = n then some ([i], .mk nm hInit isCfg isFl iErr inl flds)
      else none
    else
      match lookup1 0 flds n with
      | some (p, s) => some (i :: p, s)
      | none => none
end

/-- Navigate an index path produced by the sweep or the lookup. -/
def nodeAt (r : RecS) : List Nat → Option RecS
  | [] => some r
  | i :: p =>
    match r.fields.get? i with
    | none => none
    | some f => nodeAt f p

/-- The `InitConfig` invocations of one `config.Load` call, as index paths
into the record, for a record whose flag parsing succeeds and leaves the
positional arguments `args`: the lifecycle sweep runs (skipped entirely
when help was requested on the command line), then — in the deferred block,
when the record implements `FromFlags`, no error occurred, and a positional
argument remains — the lower-cased first argument is looked up among the
fields; when it names an embedded struct implementing both `Config` and
`FromFlags`, `Load` recurses into that subtree with the remaining
arguments. -/
def loadInit (helpReq : Bool) (r : RecS) (args : List String) :
    List (List Nat) :=
  let swept := if helpReq then ([], none) else sweepInit r
  if swept.2.isSome then swept.1
  else if !r.isFromFlags then swept.1
  else
    match args with
    | [] => swept.1
    | a :: rest =>
      match lookup1 0 r.fields (goToLower a) with
      | none => swept.1
      | some (p, s) =>
        if s.isConfig && s.isFromFlags then
          swept.1 ++ (loadInit helpReq s rest).map (p ++ ·)
        else swept.1
termination_by args.length
decreasing_by simp_wf

/-- Specification-side dispatch predicate for C5, following the claim: the
subcommand at index path `p` was dispatched in this invocation — at each
step the leftover positional argument matched the subcommand's name
case-insensitively and `Load` recursed into that subtree. -/
inductive SelectedBy : RecS → List String → List Nat → Prop where
  | here {r : RecS} {a : String} {rest : List String} {p : List Nat} {s : RecS} :
      lookup1 0 r.fields (goToLower a) = some (p, s) →
      s.isConfig = true → s.isFromFlags = true →
      goToLower s.name = goToLower a →
      SelectedBy r (a :: rest) p
  | further {r : RecS} {a : String} {rest : List String} {q : List Nat}
      {s : RecS} {p : List Nat} :
      lookup1 0 r.fields (goToLower a) = some (q, s) →
      s.isConfig = true → s.isFromFlags = true →
      goToLower s.name = goToLower a →
      SelectedBy s rest p →
      SelectedBy r (a :: rest) (q ++ p)

namespace structs

/-! ### internal/structs/set.go: `Set` -/

/-- The kinds of the value universe for `structs.Set`. -/
inductive GoKind where
  | kInt
  | kString
  | kBool
  deriving DecidableEq, Repr

/-- Non-string, non-nil values passed to `structs.Set` (a string argument
always takes the `case string` branch of its type switch, and `nil` the
`case nil` branch, so neither appears here). -/
inductive GoVal where
  | vInt (n : Int)
  | vString (s : String)
  | vBool (b : Bool)
  deriving DecidableEq, Repr

def GoVal.kind : GoVal → GoKind
  | .vInt _ => .kInt
  | .vString _ => .kString
  | .vBool _ => .kBool

/-- `reflect.Zero(value.Type())`. -/
def GoKind.zero : GoKind → GoVal
  | .kInt => .vInt 0
  | .kString => .vString ""
  | .kBool => .vBool false

/-- A `reflect.Value` as seen by `structs.Set`: settability (`CanSet`),
static kind, and current value. -/
structure RValue where
  canSet : Bool
  kind : GoKind
  val : GoVal
  deriving DecidableEq, Repr

/-- The `v interface{}` argument of `structs.Set`, split the way its type
switch splits it. -/
inductive SetArg where
  | nilArg
  | strArg (s : String)
  | valArg (v : GoVal)
  deriving DecidableEq, Repr

/-- `structs.convert`: `a.Convert(b.Type())` guarded by `recover`.  Between
the kinds of this value universe only like-kind conversions succeed; any
other conversion is the recovered reflect panic turned into an error.  (The
Go rune-to-string conversion is outside this universe.) -/
def convert (v : GoVal) (k : GoKind) : Except String GoVal :=
  if v.kind = k then .ok v
  else .error "reflect: cannot convert"

/-- `structs.Set` (set.go): a non-settable value is rejected with
`errCannotSet` before any mutation; `nil` resets the value to the zero value
of its type; a string is deserialised by `UnmarshalValue` (whose
implementation is in the structs marshaling file, not under `src/`, hence a
parameter); any other value is kind-converted when kinds differ and then
assigned. -/
def Set (unmarshal : RValue → String → RValue × Option String)
    (value : RValue) (v : SetArg) : RValue × Option String :=
  if !value.canSet then (value, some "cannot set value")
  else
    match v with
    | .nilArg => ({ value with val := value.kind.zero }, none)
    | .strArg s => unmarshal value s
    | .valArg w =>
      if value.kind ≠ w.kind then
        match convert w value.kind with
        | .error e => (value, some e)
        | .ok w' => ({ value with val := w' }, none)
      else ({ value with val := w }, none)

/-! ### internal/structs set.go: `fieldsOf` — visibility, tags, flags -/

/-- Go `strings.Split(s, ",")` rune-wise: splitting the empty string yields
one empty segment. -/
def splitCommaChars : List Char → List (List Char)
  | [] => [[]]
  | c :: rest =>
    if c = ',' then [] :: splitCommaChars rest
    else
      match splitCommaChars rest with
      | [] => [[c]]
      | seg :: segs => (c :: seg) :: segs

/-- `tagvalues := strings.Split(tagval, ",")`. -/
def splitComma (s : String) : List String :=
  (splitCommaChars s.data).map (fun l => String.mk l)

/-- A Go struct field as seen by `fieldsOf`: Go name, `cfg` tag value when
present, `sep` tag value, settability (exported or not), and its kind —
a supported basic kind, an unsupported kind (func/chan/complex/interface/
unsafe-pointer/invalid), a struct of unnamed type, or a named struct type
with its anonymous (embedded) mark and its own fields. -/
inductive GoField where
  | basic (goName : String) (cfgTag : Option String) (sepTag : String)
      (canSet : Bool)
  | unsupported (goName : String) (cfgTag : Option String) (sepTag : String)
      (canSet : Bool)
  | unnamedStruct (goName : String) (cfgTag : Option String) (sepTag : String)
      (canSet : Bool)
  | namedStruct (goName : String) (cfgTag : Option String) (sepTag : String)
      (canSet : Bool) (anonymous : Bool) (fields : List GoField)

/-- A `StructField` as produced by `fieldsOf`: a plain field, or a field
with an embedded `StructStruct` (with its inline mark), each with the
separator runes of the `sep` tag. -/
inductive MField where
  | plain (name : String) (seps : List Char)
  | emb (name : String) (inlined : Bool) (children : List MField)
      (seps : List Char)

/-- The tag-flag loop of `fieldsOf`: only `inline` is recognised; any other
flag fails with `unkown tag flag` (sic) naming the flag.  Returns the inline
mark. -/
def tagFlagsCheck : List String → Except String Bool
  | [] => .ok false
  | flag :: rest =>
    if flag = "inline" then
      match tagFlagsCheck rest with
      | .error e => .error e
      | .ok _ => .ok true
    else .error ("unkown tag flag " ++ flag)

/-- The per-field prelude of `fieldsOf`: skip non-settable fields; split the
`cfg` tag; `-` discards the field, a non-empty first segment renames it;
then the tag-flag loop runs.  `none` means the field is skipped, otherwise
the external name and inline mark are returned. -/
def tagPrelude (goName : String) (cfgTag : Option String) (canSet : Bool) :
    Except String (Option (String × Bool)) :=
  if !canSet then .ok none
  else
    match splitComma (cfgTag.getD "") with
    | [] => .ok none
    | tv0 :: tvs =>
      if tv0 = "-" then .ok none
      else
        match tagFlagsCheck tvs with
        | .error e => .error e
        | .ok inl => .ok (some ((if tv0 = "" then goName else tv0), inl))

mutual
/-- One iteration of the `fieldsOf` loop: after the tag prelude, dispatch on
the field kind — unsupported kinds and unnamed struct types are skipped
(after the flag check), an anonymous named struct is recursively decomposed
(errors wrapped with the field name) into an embedded entry carrying the
inline mark, anything else becomes a plain entry. -/
def fieldsOfF : GoField → Except String (Option MField)
  | .basic goName cfgTag sepTag canSet =>
    match tagPrelude goName cfgTag canSet with
    | .error e => .error e
    | .ok none => .ok none
    | .ok (some (fname, _)) => .ok (some (.plain fname sepTag.data))
  | .unsupported goName cfgTag _ canSet =>
    match tagPrelude goName cfgTag canSet with
    | .error e => .error e
    | .ok _ => .ok none
  | .unnamedStruct goName cfgTag _ canSet =>
    match tagPrelude goName cfgTag canSet with
    | .error e => .error e
    | .ok _ => .ok none
  | .namedStruct goName cfgTag sepTag canSet anonymous children =>
    match tagPrelude goName cfgTag canSet with
    | .error e => .error e
    | .ok none => .ok none
    | .ok (some (fname, inl)) =>
      if anonymous then
        match fieldsOf children with
        | .error e => .error (fname ++ ": " ++ e)
        | .ok sub => .ok (some (.emb fname inl sub sepTag.data))
      else .ok (some (.plain fname sepTag.data))

/-- `fieldsOf` (set.go): the loop over the struct's fields, stopping at the
first error. -/
def fieldsOf : List GoField → Except String (List MField)
  | [] => .ok []
  | f :: fs =>
    match fieldsOfF f with
    | .error e => .error e
    | .ok none => fieldsOf fs
    | .ok (some mf) =>
      match fieldsOf fs with
      | .error e => .error e
      | .ok rest => .ok (mf :: rest)
end

/-- Specification side: the first non-`inline` flag of a flag list. -/
def firstBad : List String → Option String
  | [] => none
  | flag :: rest => if flag = "inline" then firstBad rest else some flag

/-- Specification side: whether `fieldsOf` visits the field's tag flags
(settable and not discarded by a `-` key). -/
def visitedField (cfgTag : Option String) (canSet : Bool) : Bool :=
  canSet &&
    (match splitComma (cfgTag.getD "") with
     | [] => false
     | tv0 :: _ => tv0 != "-")

/-- Specification side: the first offending tag flag of one field's own
tag. -/
def preludeBad (cfgTag : Option String) (canSet : Bool) : Option String :=
  if visitedField cfgTag canSet then
    firstBad (splitComma (cfgTag.getD "")).tail
  else none

mutual
/-- Specification side: the first offending tag flag reachable in a field
(its own tag first, then — for a visited anonymous named struct — its
children, in order). -/
def collectBadF : GoField → Option String
  | .basic _ cfgTag _ canSet => preludeBad cfgTag canSet
  | .unsupported _ cfgTag _ canSet => preludeBad cfgTag canSet
  | .unnamedStruct _ cfgTag _ canSet => preludeBad cfgTag canSet
  | .namedStruct _ cfgTag _ canSet anonymous children =>
    match preludeBad cfgTag canSet with
    | some flag => some flag
    | none =>
      if visitedField cfgTag canSet && anonymous then collectBad children
      else none

/-- Specification side: the first offending tag flag in a field list. -/
def collectBad : List GoField → Option String
  | [] => none
  | f :: fs =>
    match collectBadF f with
    | some flag => some flag
    | none => collectBad fs
end

end structs

/-! ### fromio.go: `ioEncode` and the first-run save path of `ioSave` -/

/-- A field of the reflected tree as consumed by `ioEncode`: external name,
the value of the struct tag for the store's format (`""` when absent), the
current value for leaves, the usage/comment text the record would supply for
the field (not consulted by this code path), and the embedded struct with
its inline mark for groups. -/
inductive IoField where
  | leaf (name : String) (tagv : String) (value : Int) (usage : String)
  | group (name : String) (tagv : String) (inlined : Bool)
      (children : List IoField)

/-- The `Store` contract (fromio.go) as realised by the ini/toml/json/yaml
backends: keyed values, plus per-key comments for the formats that support
them.  `Store` exposes no comment operation to the core (`SetComments` is a
TODO), so the merge/save code can only ever touch `entries`. -/
structure StoreM where
  entries : List (List String × Int)
  comments : List (List String × String)
  deriving DecidableEq, Repr

/-- `store.Set(v, keys...)`: upsert under the key path.  (The concrete
stores only fail inside `structs.MarshalValue`, which the opaque values here
never trigger.) -/
def StoreM.set (st : StoreM) (ks : List String) (v : Int) : StoreM :=
  if st.entries.any (fun p => p.1 == ks) then
    { st with entries := st.entries.map (fun p => if p.1 == ks then (ks, v) else p) }
  else { st with entries := st.entries ++ [(ks, v)] }

/-- `if key := field.Tag().Get(tag); len(key) > 0 && key[0] == '-'`. -/
def storeSkip (tagv : String) : Bool :=
  match tagv.data with
  | [] => false
  | c :: _ => c == '-'

mutual
/-- `ioEncode` (fromio.go), one field: discarded fields (store tag starting
with `-`) are skipped; an embedded struct recurses with the field's name
appended to the key path — dropped again when the struct is inlined; a leaf
stores its current value under its key path.  The field's usage text is
never attached (the Store contract has no comment operation). -/
def ioEncodeF (keys : List String) (store : StoreM) : IoField → StoreM
  | .leaf name tagv v _ =>
    if storeSkip tagv then store
    else store.set (keys ++ [name]) v
  | .group name tagv inlined children =>
    if storeSkip tagv then store
    else ioEncodeL (if inlined then keys else keys ++ [name]) store children

/-- `ioEncode`: the loop over a field list. -/
def ioEncodeL (keys : List String) (store : StoreM) : List IoField → StoreM
  | [] => store
  | f :: fs => ioEncodeL keys (ioEncodeF keys store f) fs
end

/-- The first-run path of `config.ioSave` (fromio.go): `from.Load()`
returned no stream so no store was decoded (`store == nil` in `Load`),
`from.Write()` yielded a destination, so a fresh empty store is created by
`from.New` and `ioEncode` populates it from the whole tree before it is
written out.  No step can fail for the modelled stores, so `Load` returns
no error from this path. -/
def ioSaveFresh (root : List IoField) : StoreM :=
  ioEncodeL [] ⟨[], []⟩ root

mutual
/-- Specification-side expected store content: the key path and current
value of every field not skipped by the store's tag, in traversal order. -/
def specEntriesF (keys : List String) : IoField → List (List String × Int)
  | .leaf name tagv v _ =>
    if storeSkip tagv then [] else [(keys ++ [name], v)]
  | .group name tagv inlined children =>
    if storeSkip tagv then []
    else specEntriesL (if inlined then keys else keys ++ [name]) children

/-- Specification-side expected store content of a field list. -/
def specEntriesL (keys : List String) : List IoField → List (List String × Int)
  | [] => []
  | f :: fs => specEntriesF keys f ++ specEntriesL keys fs
end

namespace structs

/-! ### Lemmas about the embedded csv reader/writer -/

theorem contains_false (l : Str) (c : Char) : l.contains c = false ↔ c ∉ l := by
  simp

theorem quoteBody_cons (c : Char) (f : Str) :
    quoteBody (c :: f) =
      if c = '"' then '"' :: '"' :: quoteBody f else c :: quoteBody f := rfl

theorem parseUnquoted_cons (sep c : Char) (acc rest : Str) :
    parseUnquoted sep acc (c :: rest) =
      if c = sep then .ok (acc, some rest)
      else if c = '\n' then .ok (acc, none)
      else if c = '"' then .error .bareQuote
      else parseUnquoted sep (acc ++ [c]) rest := rfl

theorem parseQuoted_cons (sep c : Char) (acc rest : Str) :
    parseQuoted sep acc (c :: rest) =
      if c = '"' then
        match rest with
        | [] => .ok (acc, none)
        | c' :: rest' =>
          if c' = '"' then parseQuoted sep (acc ++ ['"']) rest'
          else if c' = sep then .ok (acc, some rest')
          else if c' = '\n' then .ok (acc, none)
          else .error .quote
      else parseQuoted sep (acc ++ [c]) rest := by
  rw [parseQuoted.eq_def]
  rfl

theorem joinFields_cons₂ (sep : Char) (f g : Str) (gs : List Str) :
    joinFields sep (f :: g :: gs) =
      writeField sep f ++ sep :: joinFields sep (g :: gs) := rfl

theorem parseQuoted_quote_nil (sep : Char) (acc : Str) :
    parseQuoted sep acc ['"'] = .ok (acc, none) := rfl

theorem parseQuoted_quote_cons (sep c : Char) (acc r : Str) :
    parseQuoted sep acc ('"' :: c :: r) =
      if c = '"' then parseQuoted sep (acc ++ ['"']) r
      else if c = sep then .ok (acc, some r)
      else if c = '\n' then .ok (acc, none)
      else .error .quote := rfl

theorem validDelim_spec (sep : Char) (h : validDelim sep = true) :
    sep ≠ '"' ∧ sep ≠ '\r' ∧ sep ≠ '\n' := by
  simp only [validDelim, Bool.and_eq_true, bne_iff_ne, ne_eq, decide_eq_true_eq] at h
  obtain ⟨⟨⟨⟨_, hq⟩, hr⟩, hn⟩, _⟩ := h
  exact ⟨hq, hr, hn⟩

theorem fieldNeedsQuotes_false (sep : Char) (f : Str)
    (h : fieldNeedsQuotes sep f = false) :
    sep ∉ f ∧ '"' ∉ f ∧ '\n' ∉ f := by
  by_cases hnil : f = []
  · subst hnil; simp
  · by_cases hdot : f = ['\\', '.']
    · rw [fieldNeedsQuotes, if_neg hnil, if_pos hdot] at h; cases h
    · rw [fieldNeedsQuotes, if_neg hnil, if_neg hdot] at h
      by_cases hc : f.contains sep || f.contains '"' || f.contains '\r' || f.contains '\n'
      · rw [if_pos hc] at h; cases h
      · simp only [Bool.or_eq_true, not_or, Bool.not_eq_true] at hc
        exact ⟨(contains_false f sep).mp hc.1.1.1, (contains_false f '"').mp hc.1.1.2,
          (contains_false f '\n').mp hc.2⟩

theorem parseUnquoted_safe_sep (sep : Char) (f : Str)
    (hs : sep ∉ f) (hq : '"' ∉ f) (hn : '\n' ∉ f) (r : Str) :
    ∀ acc, parseUnquoted sep acc (f ++ sep :: r) = .ok (acc ++ f, some r) := by
  induction f with
  | nil => intro acc; simp [parseUnquoted]
  | cons c f ih =>
    intro acc
    simp only [List.mem_cons, not_or] at hs hq hn
    have h1 : c ≠ sep := fun h => hs.1 h.symm
    have h2 : c ≠ '\n' := fun h => hn.1 h.symm
    have h3 : c ≠ '"' := fun h => hq.1 h.symm
    simp only [List.cons_append, parseUnquoted, if_neg h1, if_neg h2, if_neg h3,
      List.append_eq]
    rw [ih hs.2 hq.2 hn.2]
    simp

theorem parseUnquoted_safe_end (sep : Char) (f : Str)
    (hs : sep ∉ f) (hq : '"' ∉ f) (hn : '\n' ∉ f) :
    ∀ acc, parseUnquoted sep acc f = .ok (acc ++ f, none) := by
  induction f with
  | nil => intro acc; simp [parseUnquoted]
  | cons c f ih =>
    intro acc
    simp only [List.mem_cons, not_or] at hs hq hn
    have h1 : c ≠ sep := fun h => hs.1 h.symm
    have h2 : c ≠ '\n' := fun h => hn.1 h.symm
    have h3 : c ≠ '"' := fun h => hq.1 h.symm
    simp only [parseUnquoted, if_neg h1, if_neg h2, if_neg h3]
    rw [ih hs.2 hq.2 hn.2]
    simp

theorem parseQuoted_quoteBody (sep : Char) (f : Str) :
    ∀ acc rest, parseQuoted sep acc (quoteBody f ++ '"' :: rest) =
      parseQuoted sep (acc ++ f) ('"' :: rest) := by
  induction f with
  | nil => intro acc rest; simp [quoteBody]
  | cons c f ih =>
    intro acc rest
    by_cases hc : c = '"'
    · subst hc
      rw [quoteBody_cons, if_pos rfl, List.cons_append, List.cons_append,
        parseQuoted_quote_cons, if_pos rfl]
      rw [ih]
      simp
    · rw [quoteBody_cons, if_neg hc, List.cons_append, parseQuoted_cons, if_neg hc]
      rw [ih]
      simp

theorem parseQuoted_closed_end (sep : Char) (f acc : Str) :
    parseQuoted sep acc (quoteBody f ++ ['"']) = .ok (acc ++ f, none) := by
  rw [parseQuoted_quoteBody, parseQuoted_quote_nil]

theorem parseQuoted_closed_sep (sep : Char) (hq : sep ≠ '"') (f acc r : Str) :
    parseQuoted sep acc (quoteBody f ++ '"' :: sep :: r) = .ok (acc ++ f, some r) := by
  rw [parseQuoted_quoteBody, parseQuoted_quote_cons, if_neg hq, if_pos rfl]

theorem dispatchField_write_sep (sep : Char) (hv : validDelim sep = true) (f r : Str) :
    dispatchField sep (writeField sep f ++ sep :: r) = .ok (f, some r) := by
  obtain ⟨hq, _, _⟩ := validDelim_spec sep hv
  by_cases h : fieldNeedsQuotes sep f = true
  · rw [writeField, if_pos h]
    simp only [List.cons_append, List.append_assoc, List.singleton_append, dispatchField,
      if_pos rfl]
    exact parseQuoted_closed_sep sep hq f [] r
  · replace h : fieldNeedsQuotes sep f = false := by
      cases hx : fieldNeedsQuotes sep f
      · rfl
      · exact absurd hx h
    obtain ⟨hs, hqm, hn⟩ := fieldNeedsQuotes_false sep f h
    rw [writeField, if_neg (by simp [h])]
    cases f with
    | nil =>
      simp only [List.nil_append, dispatchField, if_neg hq]
      simp [parseUnquoted]
    | cons c f' =>
      have hcq : c ≠ '"' := fun hcq => hqm (hcq ▸ List.mem_cons_self c f')
      simp only [List.cons_append, dispatchField, if_neg hcq]
      exact parseUnquoted_safe_sep sep (c :: f') hs hqm hn r []

theorem dispatchField_write_end (sep : Char) (hv : validDelim sep = true) (f : Str) :
    dispatchField sep (writeField sep f) = .ok (f, none) := by
  obtain ⟨hq, _, _⟩ := validDelim_spec sep hv
  by_cases h : fieldNeedsQuotes sep f = true
  · rw [writeField, if_pos h]
    simp only [dispatchField, if_pos rfl]
    exact parseQuoted_closed_end sep f []
  · replace h : fieldNeedsQuotes sep f = false := by
      cases hx : fieldNeedsQuotes sep f
      · rfl
      · exact absurd hx h
    obtain ⟨hs, hqm, hn⟩ := fieldNeedsQuotes_false sep f h
    rw [writeField, if_neg (by simp [h])]
    cases f with
    | nil =>
      simp [dispatchField, parseUnquoted]
    | cons c f' =>
      have hcq : c ≠ '"' := fun hcq => hqm (hcq ▸ List.mem_cons_self c f')
      simp only [dispatchField, if_neg hcq]
      exact parseUnquoted_safe_end sep (c :: f') hs hqm hn []

theorem parseFields_joinFields (sep : Char) (hv : validDelim sep = true) :
    ∀ (fs : List Str) (acc : List Str) (fuel : Nat), fs ≠ [] → fs.length ≤ fuel →
      parseFields sep fuel acc (joinFields sep fs) = .ok (acc ++ fs) := by
  intro fs
  induction fs with
  | nil => intro acc fuel h; exact absurd rfl h
  | cons f fs ih =>
    intro acc fuel _ hfuel
    match fuel, hfuel with
    | fuel + 1, hfuel =>
      cases fs with
      | nil =>
        simp only [joinFields, parseFields, dispatchField_write_end sep hv f]
      | cons g gs =>
        have hne : g :: gs ≠ [] := by simp
        have hlen : (g :: gs).length ≤ fuel := by
          simpa [Nat.succ_le_succ_iff] using hfuel
        simp only [joinFields, parseFields, dispatchField_write_sep sep hv f]
        rw [ih (acc ++ [f]) fuel hne hlen]
        simp

theorem joinFields_length (sep : Char) :
    ∀ fs : List Str, fs.length - 1 ≤ (joinFields sep fs).length := by
  intro fs
  induction fs with
  | nil => simp [joinFields]
  | cons f fs ih =>
    cases fs with
    | nil => simp [joinFields]
    | cons g gs =>
      simp only [joinFields, List.length_append, List.length_cons] at ih ⊢
      omega

theorem quoteBody_not_mem (f : Str) (c : Char) (hc : c ≠ '"') (h : c ∉ f) :
    c ∉ quoteBody f := by
  induction f with
  | nil => simp [quoteBody]
  | cons a f ih =>
    simp only [List.mem_cons, not_or] at h
    by_cases ha : a = '"'
    · subst ha
      rw [quoteBody_cons, if_pos rfl]
      simp only [List.mem_cons, not_or]
      exact ⟨hc, hc, ih h.2⟩
    · rw [quoteBody_cons, if_neg ha]
      simp only [List.mem_cons, not_or]
      exact ⟨h.1, ih h.2⟩

theorem writeField_no_cr (sep : Char) (f : Str) (h : '\r' ∉ f) :
    '\r' ∉ writeField sep f := by
  intro hmem
  rw [writeField] at hmem
  by_cases hq : fieldNeedsQuotes sep f
  · rw [if_pos hq] at hmem
    rcases List.mem_cons.mp hmem with h1 | h1
    · exact absurd h1 (by decide)
    rcases List.mem_append.mp h1 with h2 | h2
    · exact quoteBody_not_mem f '\r' (by decide) h h2
    · rcases List.mem_singleton.mp h2 with h3
      exact absurd h3 (by decide)
  · rw [if_neg hq] at hmem; exact h hmem

theorem joinFields_no_cr (sep : Char) (hsep : sep ≠ '\r') :
    ∀ fs : List Str, (∀ f ∈ fs, '\r' ∉ f) → '\r' ∉ joinFields sep fs := by
  intro fs
  induction fs with
  | nil => simp [joinFields]
  | cons f fs ih =>
    intro h
    cases fs with
    | nil =>
      simpa [joinFields] using writeField_no_cr sep f (h f (by simp))
    | cons g gs =>
      simp only [joinFields, List.mem_append, List.mem_cons, not_or]
      refine ⟨writeField_no_cr sep f (h f (by simp)), fun hr => hsep hr.symm, ?_⟩
      exact ih (fun x hx => h x (by simp [hx]))

theorem normalizeCRLF_no_cr : ∀ s : Str, '\r' ∉ s → normalizeCRLF s = s := by
  intro s
  induction s with
  | nil => intro _; rfl
  | cons c s ih =>
    intro h
    simp only [List.mem_cons, not_or] at h
    have hc : c ≠ '\r' := fun hc => h.1 hc.symm
    cases s with
    | nil => rfl
    | cons c' s' =>
      rw [normalizeCRLF, if_neg hc]
      rw [ih (by simp only [List.mem_cons, not_or] at h ⊢; exact h.2)]

theorem normalizeCRLF_no_lf : ∀ s : Str, '\n' ∉ s → normalizeCRLF s = s := by
  intro s
  induction s with
  | nil => intro _; rfl
  | cons c s ih =>
    intro h
    simp only [List.mem_cons, not_or] at h
    cases s with
    | nil => rfl
    | cons c' s' =>
      have hc' : c' ≠ '\n' := by
        intro hc
        exact h.2 (by simp [hc])
      have hs : '\n' ∉ c' :: s' := by
        simp only [List.mem_cons, not_or] at h ⊢
        exact h.2
      by_cases hc : c = '\r'
      · rw [normalizeCRLF, if_pos hc, if_neg hc']
        rw [ih hs]
      · rw [normalizeCRLF, if_neg hc, ih hs]

theorem joinFields_head_not_newline (sep : Char) (hv : validDelim sep = true)
    (f : Str) (g : Str) (gs : List Str) :
    ∃ c s', joinFields sep (f :: g :: gs) = c :: s' ∧ c ≠ '\n' := by
  obtain ⟨hq, _, hn⟩ := validDelim_spec sep hv
  rw [joinFields_cons₂]
  by_cases hfq : fieldNeedsQuotes sep f = true
  · rw [writeField, if_pos hfq]
    exact ⟨'"', _, rfl, by decide⟩
  · replace hfq : fieldNeedsQuotes sep f = false := by
      cases hx : fieldNeedsQuotes sep f
      · rfl
      · exact absurd hx hfq
    obtain ⟨_, _, hnl⟩ := fieldNeedsQuotes_false sep f hfq
    rw [writeField, if_neg (by simp [hfq])]
    cases f with
    | nil => exact ⟨sep, _, rfl, hn⟩
    | cons c f' =>
      have : c ≠ '\n' := fun hc => hnl (hc ▸ List.mem_cons_self c f')
      exact ⟨c, _, rfl, this⟩

theorem csvwrite_cons₂ (sep : Char) (a b : Str) (t : List Str) :
    csvwrite sep (a :: b :: t) =
      if validDelim sep then .ok (writeRecord sep (a :: b :: t)).dropLast
      else .error "csv: invalid field or comment delimiter" := rfl

/-- C2 (amended): marshaling a list of strings with `csvreadwriter.write` and
unmarshaling with `csvreadwriter.read` reproduces the original list
(a) for every list of at least two elements none of which contains a
carriage-return character — elements containing the separator are quoted
CSV-style — and (b) for every single-element list whose element is nonempty
and contains neither the separator, a double quote, nor a newline (a single
element is emitted verbatim, with no quoting). -/
theorem csv_roundtrip (sep : Char) :
    (∀ fs : List Str, validDelim sep = true → 2 ≤ fs.length →
        (∀ f ∈ fs, '\r' ∉ f) →
        ∃ out, csvwrite sep fs = .ok out ∧ csvread sep out = .ok fs) ∧
    (∀ x : Str, validDelim sep = true → x ≠ [] →
        sep ∉ x → '"' ∉ x → '\n' ∉ x →
        csvwrite sep [x] = .ok x ∧ csvread sep x = .ok [x]) := by
  constructor
  · intro fs hv hlen hcr
    match fs, hlen with
    | a :: b :: t, _ =>
      obtain ⟨_, hr, _⟩ := validDelim_spec sep hv
      refine ⟨joinFields sep (a :: b :: t), ?_, ?_⟩
      · rw [csvwrite_cons₂, if_pos hv]
        simp [writeRecord]
      · obtain ⟨c, s', hj, hc⟩ := joinFields_head_not_newline sep hv a b t
        have hne : joinFields sep (a :: b :: t) ≠ [] := by rw [hj]; simp
        have hnocr : '\r' ∉ joinFields sep (a :: b :: t) :=
          joinFields_no_cr sep hr (a :: b :: t) hcr
        rw [csvread, if_neg hne, if_neg (by simp [hv])]
        rw [normalizeCRLF_no_cr _ hnocr, hj]
        rw [List.dropWhile_cons_of_neg (by simpa using hc), ← hj]
        rw [readRecord, if_neg hne]
        refine (parseFields_joinFields sep hv (a :: b :: t) [] _ (by simp) ?_).trans
          (by simp)
        have := joinFields_length sep (a :: b :: t)
        simp only [List.length_cons] at this ⊢
        omega
  · intro x hv hne hs hq hn
    refine ⟨rfl, ?_⟩
    rw [csvread, if_neg hne, if_neg (by simp [hv])]
    have hnolf : normalizeCRLF x = x := normalizeCRLF_no_lf x hn
    rw [hnolf]
    match x, hne with
    | c :: s', _ =>
      have hc : c ≠ '\n' := by
        intro h
        exact hn (by simp [h])
      have hcq : c ≠ '"' := by
        intro h
        exact hq (by simp [h])
      rw [List.dropWhile_cons_of_neg (by simpa using hc)]
      rw [readRecord, if_neg (by simp)]
      have hfuel : (c :: s').length + 1 = ((c :: s').length) + 1 := rfl
      show parseFields sep ((c :: s').length + 1) [] (c :: s') = .ok [c :: s']
      rw [parseFields]
      have hdis : dispatchField sep (c :: s') = .ok (c :: s', none) := by
        rw [dispatchField, if_neg hcq]
        exact parseUnquoted_safe_end sep (c :: s') hs hq hn []
      rw [hdis]
      simp

/-- C2 counterexample: the claim fails as stated for the single-element list
whose element is the string `a,b` under separator `,` — `csvreadwriter.write`
emits the element verbatim without quoting, and `csvreadwriter.read` then
splits it at the separator into two elements. -/
theorem csv_roundtrip_single_counterexample :
    csvwrite ',' [['a', ',', 'b']] = .ok ['a', ',', 'b'] ∧
    csvread ',' ['a', ',', 'b'] = .ok [['a'], ['b']] ∧
    [['a'], ['b']] ≠ [['a', ',', 'b']] := by
  refine ⟨rfl, by rfl, by decide⟩

/-- C2 witness: the round-trip theorem applied to the concrete two-element
list `["a,", "b"]` with separator `,`. -/
theorem csv_roundtrip_witness :
    ∃ out, csvwrite ',' [['a', ','], ['b']] = .ok out ∧
      csvread ',' out = .ok [['a', ','], ['b']] :=
  (csv_roundtrip ',').1 [['a', ','], ['b']] (by decide) (by decide) (by decide)

/-- C10: joining zero components yields the empty string, joining one
component yields it verbatim with no quoting or escaping, and splitting the
empty string yields the empty list with no error. -/
theorem csv_write_small_read_empty (sep : Char) (x : Str) :
    csvwrite sep [] = .ok [] ∧ csvwrite sep [x] = .ok x ∧
      csvread sep [] = .ok [] :=
  ⟨rfl, rfl, rfl⟩

end structs

/-! ### Lemmas about `config.buildKeys` -/

theorem transHas_iff (trans : List (String × String)) (k : String) :
    transHas trans k = true ↔ k ∈ trans.map Prod.fst := by
  simp only [transHas, List.any_eq_true, beq_iff_eq, List.mem_map]

theorem buildKeysF_leaf (gsep sect : String) (trans : List (String × String))
    (name : String) :
    buildKeysF gsep sect trans (.leaf name) =
      if transHas trans (goToLower (toName gsep sect name)) then
        .error ("duplicate config name: " ++ goToLower (toName gsep sect name))
      else .ok (trans ++ [(goToLower (toName gsep sect name), toName gsep sect name)]) := by
  rw [buildKeysF]

theorem buildKeysF_group (gsep sect : String) (trans : List (String × String))
    (name : String) (inlined : Bool) (children : List Field) :
    buildKeysF gsep sect trans (.group name inlined children) =
      match buildKeysL gsep (toSection gsep sect inlined name) trans children with
      | .error e => .error (name ++ ": " ++ e)
      | .ok t => .ok t := by
  rw [buildKeysF]

mutual
theorem buildKeysF_spec (gsep sect : String) (trans : List (String × String))
    (f : Field) (hnd : (trans.map Prod.fst).Nodup) :
    ((trans.map Prod.fst ++ flatNamesF gsep sect f).Nodup →
      ∃ t, buildKeysF gsep sect trans f = .ok t ∧
        t.map Prod.fst = trans.map Prod.fst ++ flatNamesF gsep sect f) ∧
    (¬ (trans.map Prod.fst ++ flatNamesF gsep sect f).Nodup →
      ∃ l pre, buildKeysF gsep sect trans f =
          .error (pre ++ ("duplicate config name: " ++ l)) ∧
        2 ≤ (trans.map Prod.fst ++ flatNamesF gsep sect f).count l) := by
  cases f with
  | leaf name =>
    constructor
    · intro hok
      simp only [flatNamesF] at hok
      have hmem : goToLower (toName gsep sect name) ∉ trans.map Prod.fst := by
        intro hm
        rcases List.nodup_append.mp hok with ⟨_, _, hdisj⟩
        exact hdisj hm (by simp)
      rw [buildKeysF_leaf,
        if_neg (by simp only [transHas_iff]; exact hmem)]
      exact ⟨_, rfl, by simp [flatNamesF]⟩
    · intro hbad
      simp only [flatNamesF] at hbad
      have hmem : goToLower (toName gsep sect name) ∈ trans.map Prod.fst := by
        by_contra hm
        exact hbad (List.nodup_append.mpr ⟨hnd, by simp, by
          intro a ha hb
          simp only [List.mem_singleton] at hb
          exact hm (hb ▸ ha)⟩)
      refine ⟨goToLower (toName gsep sect name), "", ?_, ?_⟩
      · rw [buildKeysF_leaf, if_pos ((transHas_iff _ _).mpr hmem)]
        simp
      · simp only [flatNamesF, List.count_append]
        have h1 : 1 ≤ (trans.map Prod.fst).count (goToLower (toName gsep sect name)) :=
          List.count_pos_iff.mpr hmem
        have h2 : ([goToLower (toName gsep sect name)]).count
            (goToLower (toName gsep sect name)) = 1 := by simp
        omega
  | group name inlined children =>
    have hsub := buildKeysL_spec gsep (toSection gsep sect inlined name) trans
      children hnd
    constructor
    · intro hok
      simp only [flatNamesF] at hok ⊢
      obtain ⟨t, ht, hmap⟩ := hsub.1 hok
      rw [buildKeysF_group, ht]
      exact ⟨t, rfl, hmap⟩
    · intro hbad
      simp only [flatNamesF] at hbad ⊢
      obtain ⟨l, pre, he, hc⟩ := hsub.2 hbad
      rw [buildKeysF_group, he]
      refine ⟨l, name ++ ": " ++ pre, ?_, hc⟩
      simp [String.append_assoc]

theorem buildKeysL_spec (gsep sect : String) (trans : List (String × String))
    (fs : List Field) (hnd : (trans.map Prod.fst).Nodup) :
    ((trans.map Prod.fst ++ flatNamesL gsep sect fs).Nodup →
      ∃ t, buildKeysL gsep sect trans fs = .ok t ∧
        t.map Prod.fst = trans.map Prod.fst ++ flatNamesL gsep sect fs) ∧
    (¬ (trans.map Prod.fst ++ flatNamesL gsep sect fs).Nodup →
      ∃ l pre, buildKeysL gsep sect trans fs =
          .error (pre ++ ("duplicate config name: " ++ l)) ∧
        2 ≤ (trans.map Prod.fst ++ flatNamesL gsep sect fs).count l) := by
  cases fs with
  | nil =>
    constructor
    · intro _
      exact ⟨trans, rfl, by simp [flatNamesL]⟩
    · intro hbad
      exact absurd (by simpa [flatNamesL] using hnd) hbad
  | cons f fs =>
    have hF := buildKeysF_spec gsep sect trans f hnd
    constructor
    · intro hok
      simp only [flatNamesL, ← List.append_assoc] at hok
      have hok1 : (trans.map Prod.fst ++ flatNamesF gsep sect f).Nodup :=
        (List.Nodup.sublist (List.sublist_append_left _ _) hok)
      obtain ⟨t, ht, hmap⟩ := hF.1 hok1
      have hL := buildKeysL_spec gsep sect t fs (hmap ▸ hok1)
      obtain ⟨t', ht', hmap'⟩ := hL.1 (by rw [hmap]; exact hok)
      refine ⟨t', ?_, ?_⟩
      · rw [buildKeysL, ht]
        exact ht'
      · rw [hmap', hmap]
        simp [flatNamesL]
    · intro hbad
      simp only [flatNamesL, ← List.append_assoc] at hbad
      by_cases h1 : (trans.map Prod.fst ++ flatNamesF gsep sect f).Nodup
      · obtain ⟨t, ht, hmap⟩ := hF.1 h1
        have hL := buildKeysL_spec gsep sect t fs (hmap ▸ h1)
        obtain ⟨l, pre, he, hc⟩ := hL.2 (by rw [hmap]; exact hbad)
        refine ⟨l, pre, ?_, ?_⟩
        · rw [buildKeysL, ht]
          exact he
        · rw [hmap] at hc
          simpa [flatNamesL, List.count_append] using hc
      · obtain ⟨l, pre, he, hc⟩ := hF.2 h1
        refine ⟨l, pre, ?_, ?_⟩
        · rw [buildKeysL, he]
        · simp only [List.count_append] at hc ⊢
          simp only [flatNamesL, List.count_append]
          omega
end

/-- C4: whenever two fields of the record flatten (after renaming, grouping
and inlining) to the same case-insensitive external name, `config.buildKeys`
fails with a `duplicate config name` error whose message names the offending
lower-cased key (possibly under field-name prefixes); a record with no such
collision builds its key index without error, producing exactly the
flattened names. -/
theorem buildKeys_duplicate (gsep : String) (fields : List Field) :
    (¬ (flatNamesL gsep "" fields).Nodup →
      ∃ l pre, buildKeysL gsep "" [] fields =
          .error (pre ++ ("duplicate config name: " ++ l)) ∧
        2 ≤ (flatNamesL gsep "" fields).count l) ∧
    ((flatNamesL gsep "" fields).Nodup →
      ∃ t, buildKeysL gsep "" [] fields = .ok t ∧
        t.map Prod.fst = flatNamesL gsep "" fields) := by
  have h := buildKeysL_spec gsep "" [] fields (by simp)
  constructor
  · intro hbad
    obtain ⟨l, pre, he, hc⟩ := h.2 (by simpa using hbad)
    exact ⟨l, pre, he, by simpa using hc⟩
  · intro hok
    obtain ⟨t, ht, hmap⟩ := h.1 (by simpa using hok)
    exact ⟨t, ht, by simpa using hmap⟩

/-! ### The source-merge bug: env assignments are not removed from `c.trans` -/

/-- C1 (failing input): a record with the single field `Port` (default 80),
no flag supplied, the environment variable set to 9090 and the decoded file
store containing 8080.  `Load`'s own documentation (config.go:100-106)
promises cli over env over file, i.e. a final value of 9090; the code
produces 8080, because the env branch executes `delete(c.trans, "Port")`
with the original-case name while `c.trans` is keyed by the lower-cased
`"port"`, so the field stays outstanding and the file merge overwrites it. -/
theorem load_env_value_overwritten_by_store :
    loadMerge "-" [("Port", 80)]
        (fun _ => none)
        (fun n => if n = "Port" then some 9090 else none)
        (fun n => if n = "Port" then some 8080 else none) =
      .ok ([("Port", 8080)], [("port", "Port")]) ∧ (9090 : Int) ≠ 8080 :=
  ⟨rfl, by decide⟩

/-- C3 (failing input): after the env branch assigns field `Port` (value
9090 recorded in the state), the outstanding set still contains the entry
`("port", "Port")` — `delete(c.trans, name)` used the original-case value
`"Port"`, not the lower-cased key — so the claim that a successful
assignment removes the field's entry fails for the environment source.
(The file-store branch, config.go:296-326, contains no delete at all.) -/
theorem envPhase_leaves_entry_outstanding :
    envPhase (fun n => if n = "Port" then some 9090 else none)
        [("port", "Port")] [("Port", 80)] =
      ([("port", "Port")], [("Port", 9090)]) :=
  rfl

/-- C4 witness: two sibling fields `Port` and `PORT` collide
case-insensitively and `buildKeys` reports the duplicate name, while the
collision-free record `Port`/`Host` builds its index without error. -/
theorem buildKeys_duplicate_witness :
    (∃ l pre, buildKeysL "-" "" [] [.leaf "Port", .leaf "PORT"] =
        .error (pre ++ ("duplicate config name: " ++ l)) ∧
      2 ≤ (flatNamesL "-" "" [.leaf "Port", .leaf "PORT"]).count l) ∧
    (∃ t, buildKeysL "-" "" [] [.leaf "Port", .leaf "Host"] = .ok t ∧
      t.map Prod.fst = flatNamesL "-" "" [.leaf "Port", .leaf "Host"]) :=
  ⟨(buildKeys_duplicate "-" [.leaf "Port", .leaf "PORT"]).1 (by decide),
   (buildKeys_duplicate "-" [.leaf "Port", .leaf "Host"]).2 (by decide)⟩

/-! ### Lemmas about the lifecycle sweep and subcommand dispatch -/

theorem char_toLower_idem (c : Char) : c.toLower.toLower = c.toLower := by
  simp only [Char.toLower]
  by_cases h : c.toNat ≥ 65 ∧ c.toNat ≤ 90
  · rw [if_pos h]
    have hv : (c.toNat + 32).isValidChar := Or.inl (by omega)
    have ht : (Char.ofNat (c.toNat + 32)).toNat = c.toNat + 32 := by
      rw [Char.ofNat, dif_pos hv]; rfl
    rw [if_neg (by rw [ht]; omega)]
  · rw [if_neg h, if_neg h]

theorem goToLower_idem (s : String) : goToLower (goToLower s) = goToLower s := by
  simp only [goToLower, List.map_map]
  congr 1
  induction s.data with
  | nil => rfl
  | cons c cs ih =>
    simp only [List.map_cons, Function.comp_apply, char_toLower_idem, ih]

theorem nodeAt_cons (r : RecS) (i : Nat) (p : List Nat) :
    nodeAt r (i :: p) =
      match r.fields.get? i with
      | none => none
      | some f => nodeAt f p := by
  rw [nodeAt]

theorem nodeAt_append (p : List Nat) :
    ∀ (r : RecS) (p' : List Nat),
      nodeAt r (p ++ p') = (nodeAt r p).bind (fun s => nodeAt s p') := by
  induction p with
  | nil => intro r p'; simp [nodeAt]
  | cons i p ih =>
    intro r p'
    rw [List.cons_append, nodeAt_cons, nodeAt_cons]
    cases hg : r.fields.get? i with
    | none => rfl
    | some f => exact ih f p'

theorem sweepInit_mk (nm : String) (hInit isCfg isFl : Bool)
    (iErr : Option String) (inl : Bool) (flds : List RecS) :
    sweepInit (.mk nm hInit isCfg isFl iErr inl flds) =
      if hInit && iErr.isSome then ([[]], iErr)
      else ((if hInit then [[]] else []) ++ (sweepFields 0 flds).1,
        (sweepFields 0 flds).2) := by
  rw [sweepInit]

theorem sweepFields_cons (i : Nat) (f : RecS) (fs : List RecS) :
    sweepFields i (f :: fs) =
      if isCommand f then sweepFields (i + 1) fs
      else if !f.isConfig then sweepFields (i + 1) fs
      else
        match sweepInit f with
        | (ps, some err) => (ps.map (i :: ·), some err)
        | (ps, none) =>
          match sweepFields (i + 1) fs with
          | (qs, e') => (ps.map (i :: ·) ++ qs, e') := by
  rw [sweepFields]

theorem lookup1_cons (i : Nat) (f : RecS) (fs : List RecS) (n : String) :
    lookup1 i (f :: fs) n =
      match lookup1Field i f n with
      | some res => some res
      | none => lookup1 (i + 1) fs n := by
  rw [lookup1]

theorem lookup1Field_mk (i : Nat) (nm : String) (hInit isCfg isFl : Bool)
    (iErr : Option String) (inl : Bool) (flds : List RecS) (n : String) :
    lookup1Field i (.mk nm hInit isCfg isFl iErr inl flds) n =
      if !inl then
        (if nm = n then some ([i], .mk nm hInit isCfg isFl iErr inl flds)
         else none)
      else
        match lookup1 0 flds n with
        | some (p, s) => some (i :: p, s)
        | none => none := by
  rw [lookup1Field]

mutual
theorem sweepInit_spec (r : RecS) :
    (∀ p ∈ (sweepInit r).1, p ≠ [] →
      ∃ s, nodeAt r p = some s ∧ s.isConfig = true ∧ s.isFromFlags = false) ∧
    (∀ e, (sweepInit r).2 = some e →
      ∃ p s, p ∈ (sweepInit r).1 ∧ nodeAt r p = some s ∧
        s.initErr = some e) := by
  match r with
  | .mk nm hInit isCfg isFl iErr inl flds =>
    rw [sweepInit_mk]
    by_cases hstop : (hInit && iErr.isSome) = true
    · rw [if_pos hstop]
      constructor
      · intro p hp hne
        simp only [List.mem_singleton] at hp
        exact absurd hp hne
      · intro e he
        refine ⟨[], .mk nm hInit isCfg isFl iErr inl flds, by simp, rfl, ?_⟩
        exact he
    · rw [if_neg hstop]
      have hF := sweepFields_spec 0 flds
      constructor
      · intro p hp hne
        rcases List.mem_append.mp hp with h1 | h1
        · exfalso
          apply hne
          cases hInit <;> simp_all
        · obtain ⟨j, p', f, hpj, _, hget, s, hnode, hcfg, hfl⟩ := hF.1 p h1
          refine ⟨s, ?_, hcfg, hfl⟩
          rw [hpj, nodeAt_cons]
          simp only [Nat.sub_zero] at hget
          have : RecS.fields (.mk nm hInit isCfg isFl iErr inl flds) = flds := rfl
          rw [this, hget]
          exact hnode
      · intro e he
        obtain ⟨p, hp, j, p', f, s, hpj, _, hget, hnode, herr⟩ := hF.2 e he
        refine ⟨p, s, List.mem_append_right _ hp, ?_, herr⟩
        rw [hpj, nodeAt_cons]
        simp only [Nat.sub_zero] at hget
        have : RecS.fields (.mk nm hInit isCfg isFl iErr inl flds) = flds := rfl
        rw [this, hget]
        exact hnode

theorem sweepFields_spec (i : Nat) (fs : List RecS) :
    (∀ p ∈ (sweepFields i fs).1,
      ∃ j p' f, p = j :: p' ∧ i ≤ j ∧ fs.get? (j - i) = some f ∧
        ∃ s, nodeAt f p' = some s ∧ s.isConfig = true ∧
          s.isFromFlags = false) ∧
    (∀ e, (sweepFields i fs).2 = some e →
      ∃ p, p ∈ (sweepFields i fs).1 ∧ ∃ j p' f s, p = j :: p' ∧ i ≤ j ∧
        fs.get? (j - i) = some f ∧ nodeAt f p' = some s ∧
        s.initErr = some e) := by
  match fs with
  | [] =>
    constructor
    · intro p hp
      rw [sweepFields] at hp
      simp at hp
    · intro e he
      rw [sweepFields] at he
      simp at he
  | f :: fs =>
    have hshift : ∀ (P : (List (List Nat) × Option String) → Prop),
        P (sweepFields (i + 1) fs) →
        (∀ p ∈ (sweepFields (i + 1) fs).1,
          ∃ j p' g, p = j :: p' ∧ i + 1 ≤ j ∧ fs.get? (j - (i + 1)) = some g ∧
            ∃ s, nodeAt g p' = some s ∧ s.isConfig = true ∧
              s.isFromFlags = false) →
        True := fun _ _ _ => trivial
    have hIH := sweepFields_spec (i + 1) fs
    by_cases hcmd : isCommand f = true
    · rw [sweepFields_cons, if_pos hcmd]
      constructor
      · intro p hp
        obtain ⟨j, p', g, hpj, hij, hget, hrest⟩ := hIH.1 p hp
        refine ⟨j, p', g, hpj, by omega, ?_, hrest⟩
        have hj : j - i = (j - (i + 1)) + 1 := by omega
        rw [hj, List.get?_cons_succ]
        exact hget
      · intro e he
        obtain ⟨p, hp, j, p', g, s, hpj, hij, hget, hnode, herr⟩ := hIH.2 e he
        refine ⟨p, hp, j, p', g, s, hpj, by omega, ?_, hnode, herr⟩
        have hj : j - i = (j - (i + 1)) + 1 := by omega
        rw [hj, List.get?_cons_succ]
        exact hget
    · by_cases hcfg : f.isConfig = true
      · have hnc : (!f.isConfig) = false := by simp [hcfg]
        have hsub := sweepInit_spec f
        rcases hsp : sweepInit f with ⟨ps, e₀⟩
        rw [sweepFields_cons, if_neg hcmd, if_neg (by simp [hnc])]
        rw [hsp]
        have hfl : f.isFromFlags = false := by
          cases hx : f.isFromFlags
          · rfl
          · exact absurd (by simp [isCommand, hcfg, hx]) hcmd
        cases e₀ with
        | some err =>
          constructor
          · intro p hp
            simp only [List.mem_map] at hp
            obtain ⟨p₀, hp₀, hpe⟩ := hp
            subst hpe
            refine ⟨i, p₀, f, rfl, le_refl i, by simp, ?_⟩
            by_cases hz : p₀ = []
            · subst hz
              exact ⟨f, by simp [nodeAt], hcfg, hfl⟩
            · have := (hsub.1 p₀ (by rw [hsp]; exact hp₀) hz)
              exact this
          · intro e he
            have hee : err = e := by simpa using he
            subst hee
            obtain ⟨p₀, s, hp₀, hnode, herr⟩ := hsub.2 err (by rw [hsp])
            refine ⟨i :: p₀, ?_, i, p₀, f, s, rfl, le_refl i, by simp,
              hnode, herr⟩
            simp only [List.mem_map]
            exact ⟨p₀, by rw [hsp] at hp₀; exact hp₀, rfl⟩
        | none =>
          rcases hsf : sweepFields (i + 1) fs with ⟨qs, e₁⟩
          rw [hsf] at hIH
          constructor
          · intro p hp
            simp only at hp
            rcases List.mem_append.mp hp with h1 | h1
            · simp only [List.mem_map] at h1
              obtain ⟨p₀, hp₀, hpe⟩ := h1
              subst hpe
              refine ⟨i, p₀, f, rfl, le_refl i, by simp, ?_⟩
              by_cases hz : p₀ = []
              · subst hz
                exact ⟨f, by simp [nodeAt], hcfg, hfl⟩
              · exact hsub.1 p₀ (by rw [hsp]; exact hp₀) hz
            · obtain ⟨j, p', g, hpj, hij, hget, hrest⟩ := hIH.1 p h1
              refine ⟨j, p', g, hpj, by omega, ?_, hrest⟩
              have hj : j - i = (j - (i + 1)) + 1 := by omega
              rw [hj, List.get?_cons_succ]
              exact hget
          · intro e he
            simp only at he
            obtain ⟨p, hp, j, p', g, s, hpj, hij, hget, hnode, herr⟩ :=
              hIH.2 e he
            refine ⟨p, List.mem_append_right _ hp, j, p', g, s, hpj,
              by omega, ?_, hnode, herr⟩
            have hj : j - i = (j - (i + 1)) + 1 := by omega
            rw [hj, List.get?_cons_succ]
            exact hget
      · have hnc : (!f.isConfig) = true := by
          cases hx : f.isConfig
          · rfl
          · exact absurd hx hcfg
        rw [sweepFields_cons, if_neg hcmd, if_pos hnc]
        constructor
        · intro p hp
          obtain ⟨j, p', g, hpj, hij, hget, hrest⟩ := hIH.1 p hp
          refine ⟨j, p', g, hpj, by omega, ?_, hrest⟩
          have hj : j - i = (j - (i + 1)) + 1 := by omega
          rw [hj, List.get?_cons_succ]
          exact hget
        · intro e he
          obtain ⟨p, hp, j, p', g, s, hpj, hij, hget, hnode, herr⟩ :=
            hIH.2 e he
          refine ⟨p, hp, j, p', g, s, hpj, by omega, ?_, hnode, herr⟩
          have hj : j - i = (j - (i + 1)) + 1 := by omega
          rw [hj, List.get?_cons_succ]
          exact hget
end

mutual
theorem lookup1_spec (fs : List RecS) (n : String) (i : Nat) (q : List Nat)
    (s : RecS) (h : lookup1 i fs n = some (q, s)) :
    s.name = n ∧ ∃ j q₂ f, q = j :: q₂ ∧ i ≤ j ∧ fs.get? (j - i) = some f ∧
      nodeAt f q₂ = some s := by
  match fs with
  | [] =>
    rw [lookup1] at h
    cases h
  | f :: fs =>
    rw [lookup1_cons] at h
    cases hf : lookup1Field i f n with
    | some res =>
      rw [hf] at h
      simp only [Option.some.injEq] at h
      obtain ⟨hname, q₂, hq, hnode⟩ := lookup1Field_spec i f n res.1 res.2
        (by rw [hf])
      rw [h] at hname hq hnode
      exact ⟨hname, i, q₂, f, hq, le_refl i, by simp, hnode⟩
    | none =>
      rw [hf] at h
      obtain ⟨hname, j, q₂, g, hq, hij, hget, hnode⟩ :=
        lookup1_spec fs n (i + 1) q s h
      refine ⟨hname, j, q₂, g, hq, by omega, ?_, hnode⟩
      have hj : j - i = (j - (i + 1)) + 1 := by omega
      rw [hj, List.get?_cons_succ]
      exact hget

theorem lookup1Field_spec (i : Nat) (f : RecS) (n : String) (q : List Nat)
    (s : RecS) (h : lookup1Field i f n = some (q, s)) :
    s.name = n ∧ ∃ q₂, q = i :: q₂ ∧ nodeAt f q₂ = some s := by
  match f with
  | .mk nm hI iC iF iE inl flds =>
    rw [lookup1Field_mk] at h
    by_cases hinl : inl = true
    · rw [if_neg (by simp [hinl])] at h
      cases hin : lookup1 0 flds n with
      | some ps =>
        obtain ⟨p₀, s₀⟩ := ps
        rw [hin] at h
        simp only [Option.some.injEq, Prod.mk.injEq] at h
        obtain ⟨hq, hs⟩ := h
        obtain ⟨hname, j', q₂', f', hq', _, hget', hnode'⟩ :=
          lookup1_spec flds n 0 p₀ s₀ hin
        rw [hs] at hname hnode'
        refine ⟨hname, p₀, hq.symm, ?_⟩
        rw [hq', nodeAt_cons]
        have : RecS.fields (.mk nm hI iC iF iE inl flds) = flds := rfl
        rw [this]
        simp only [Nat.sub_zero] at hget'
        rw [hget']
        exact hnode'
      | none =>
        rw [hin] at h
        cases h
    · rw [if_pos (by simp [hinl])] at h
      by_cases hnm : nm = n
      · rw [if_pos hnm] at h
        simp only [Option.some.injEq, Prod.mk.injEq] at h
        obtain ⟨hq, hs⟩ := h
        rw [← hs]
        exact ⟨hnm, [], hq.symm, by simp [nodeAt]⟩
      · rw [if_neg hnm] at h
        cases h
end

/-- With help requested on the command line, no `InitConfig` ever runs, at
any subcommand depth. -/
theorem loadInit_help (args : List String) :
    ∀ r : RecS, loadInit true r args = [] := by
  induction args with
  | nil =>
    intro r
    rw [loadInit.eq_def]
    simp
  | cons a rest ih =>
    intro r
    rw [loadInit.eq_def]
    cases hlk : lookup1 0 r.fields (goToLower a) with
    | none => simp [hlk]
    | some ps =>
      obtain ⟨p, s⟩ := ps
      simp [hlk, ih s]

/-- Membership in `loadInit false` comes either from the lifecycle sweep of
the receiver or from a dispatched subcommand's own `Load`. -/
theorem loadInit_false_mem (args : List String) (r : RecS) (p : List Nat)
    (hp : p ∈ loadInit false r args) :
    p ∈ (sweepInit r).1 ∨
    ∃ a rest q s p₀, args = a :: rest ∧
      lookup1 0 r.fields (goToLower a) = some (q, s) ∧
      s.isConfig = true ∧ s.isFromFlags = true ∧
      p₀ ∈ loadInit false s rest ∧ p = q ++ p₀ := by
  rw [loadInit.eq_def] at hp
  have hsw : (if false = true then (([], none) : List (List Nat) × Option String)
      else sweepInit r) = sweepInit r := rfl
  rw [hsw] at hp
  simp only at hp
  by_cases he : (sweepInit r).2.isSome
  · rw [if_pos he] at hp
    exact Or.inl hp
  · rw [if_neg he] at hp
    by_cases hff : (!r.isFromFlags) = true
    · rw [if_pos hff] at hp
      exact Or.inl hp
    · rw [if_neg hff] at hp
      match args, hp with
      | [], hp => exact Or.inl hp
      | a :: rest, hp =>
        dsimp only at hp
        cases hlk : lookup1 0 r.fields (goToLower a) with
        | none =>
          rw [hlk] at hp
          exact Or.inl hp
        | some ps =>
          obtain ⟨q, s⟩ := ps
          rw [hlk] at hp
          dsimp only at hp
          by_cases hc : (s.isConfig && s.isFromFlags) = true
          · rw [if_pos hc] at hp
            rcases List.mem_append.mp hp with h1 | h1
            · exact Or.inl h1
            · simp only [List.mem_map] at h1
              obtain ⟨p₀, hp₀, hpe⟩ := h1
              simp only [Bool.and_eq_true] at hc
              exact Or.inr ⟨a, rest, q, s, p₀, rfl, hlk, hc.1, hc.2, hp₀,
                hpe.symm⟩
          · rw [if_neg hc] at hp
            exact Or.inl hp

/-- A path invoked by the sweep can never point at a subcommand. -/
theorem sweep_no_subcommand (r : RecS) (p : List Nat) (s : RecS)
    (hp : p ∈ (sweepInit r).1) (hne : p ≠ []) (hnode : nodeAt r p = some s)
    (hcmd : isCommand s = true) : False := by
  obtain ⟨s', hnode', hcfg, hfl⟩ := (sweepInit_spec r).1 p hp hne
  rw [hnode] at hnode'
  cases hnode'
  rw [isCommand, hcfg, hfl] at hcmd
  cases hcmd

/-- C5: during one `Load` invocation, `InitConfig` is never invoked on an
embedded struct implementing both `Config` and `FromFlags` (a subcommand)
unless that subcommand was dispatched in this invocation: its name matched
the leftover positional argument case-insensitively at its nesting depth and
`Load` recursed into its subtree. -/
theorem loadInit_subcommand_only_dispatched (args : List String) :
    ∀ (helpReq : Bool) (r : RecS) (p : List Nat),
      p ∈ loadInit helpReq r args → p ≠ [] →
      ∀ s, nodeAt r p = some s → isCommand s = true →
      SelectedBy r args p := by
  induction args with
  | nil =>
    intro helpReq r p hp hne s hnode hcmd
    cases helpReq with
    | true => rw [loadInit_help] at hp; cases hp
    | false =>
      rcases loadInit_false_mem [] r p hp with h1 | h2
      · exact absurd hcmd (by
          exact absurd (sweep_no_subcommand r p s h1 hne hnode hcmd) not_false)
      · obtain ⟨a0, rest0, _, _, _, habs, _⟩ := h2
        cases habs
  | cons a rest ih =>
    intro helpReq r p hp hne s hnode hcmd
    cases helpReq with
    | true => rw [loadInit_help] at hp; cases hp
    | false =>
      rcases loadInit_false_mem (a :: rest) r p hp with h1 | h2
      · exact absurd (sweep_no_subcommand r p s h1 hne hnode hcmd) not_false
      · obtain ⟨a', rest', q, sub, p₀, hargs, hlk, hcfg, hfl, hp₀, hpe⟩ := h2
        injection hargs with ha hrest
        rw [← ha] at hlk
        rw [← hrest] at hp₀
        obtain ⟨hname, j, q₂, f, hq, _, hget, hnodef⟩ :=
          lookup1_spec r.fields (goToLower a) 0 q sub hlk
        have hlow : goToLower sub.name = goToLower a := by
          rw [hname, goToLower_idem]
        by_cases hz : p₀ = []
        · subst hz
          rw [hpe, List.append_nil]
          exact SelectedBy.here hlk hcfg hfl hlow
        · have hnq : nodeAt r q = some sub := by
            rw [hq, nodeAt_cons]
            simp only [Nat.sub_zero] at hget
            rw [hget]
            exact hnodef
          have hnodes : nodeAt sub p₀ = some s := by
            rw [hpe, nodeAt_append, hnq] at hnode
            exact hnode
          have hsel := ih false sub p₀ hp₀ hz s hnodes hcmd
          rw [hpe]
          exact SelectedBy.further hlk hcfg hfl hlow hsel

/-- C5 witness: a record with subcommand field `start` (lower-case external
name, so the dispatch lookup matches) dispatched by the argument `Start`:
the subcommand's `InitConfig` runs and the theorem yields the dispatch
predicate for its path. -/
theorem loadInit_subcommand_witness :
    SelectedBy
      (.mk "root" true true true none false
        [.mk "start" true true true none false []])
      ["Start"] [0] :=
  loadInit_subcommand_only_dispatched ["Start"] false
    (.mk "root" true true true none false
      [.mk "start" true true true none false []])
    [0]
    (by
      have h : loadInit false (.mk "root" true true true none false
          [.mk "start" true true true none false []]) ["Start"] = [[], [0]] := by
        simp only [loadInit.eq_def]
        rfl
      rw [h]
      decide)
    (by decide)
    (.mk "start" true true true none false []) rfl rfl

/-- C8: the lifecycle sweep invokes `InitConfig` on an embedded struct only
when that struct's value implements `Config` and it is not a subcommand
(embedded structs without `Config` and subcommand subtrees are skipped), and
silently: any error the sweep returns is the `InitConfig` result of a struct
it invoked. -/
theorem init_sweep_only_config (r : RecS) :
    (∀ p ∈ (sweepInit r).1, p ≠ [] →
      ∃ s, nodeAt r p = some s ∧ s.isConfig = true ∧
        s.isFromFlags = false) ∧
    (∀ e, (sweepInit r).2 = some e →
      ∃ p s, p ∈ (sweepInit r).1 ∧ nodeAt r p = some s ∧
        s.initErr = some e) :=
  sweepInit_spec r

/-- C8 witness: a record with a `Config` group, a subcommand and a
non-`Config` embedded struct — the sweep's path `[0]` lands on the `Config`
non-subcommand group; and a record whose group's `InitConfig` fails
attributes the error to an invoked struct. -/
theorem init_sweep_only_config_witness :
    (∃ s,
      nodeAt
        (.mk "root" true true true none false
          [.mk "Log" true true false none false [],
           .mk "start" true true true none false [],
           .mk "Plain" false false false none false []]) [0] = some s ∧
      s.isConfig = true ∧ s.isFromFlags = false) ∧
    (∃ p s,
      p ∈ (sweepInit (.mk "root" true true true none false
        [.mk "Log" true true false (some "boom") false []])).1 ∧
      nodeAt (.mk "root" true true true none false
        [.mk "Log" true true false (some "boom") false []]) p = some s ∧
      s.initErr = some "boom") :=
  ⟨(init_sweep_only_config
      (.mk "root" true true true none false
        [.mk "Log" true true false none false [],
         .mk "start" true true true none false [],
         .mk "Plain" false false false none false []])).1
    [0] (by decide) (by decide),
   (init_sweep_only_config
      (.mk "root" true true true none false
        [.mk "Log" true true false (some "boom") false []])).2
    "boom" (by decide)⟩

/-! ### Lemmas about `fieldsOf` tag-flag handling -/

namespace structs

theorem tagFlagsCheck_bad (tvs : List String) (flag : String)
    (h : firstBad tvs = some flag) :
    tagFlagsCheck tvs = .error ("unkown tag flag " ++ flag) := by
  induction tvs with
  | nil => cases h
  | cons t rest ih =>
    by_cases ht : t = "inline"
    · rw [firstBad, if_pos ht] at h
      rw [tagFlagsCheck, if_pos ht, ih h]
    · rw [firstBad, if_neg ht] at h
      cases h
      rw [tagFlagsCheck, if_neg ht]

theorem tagFlagsCheck_good (tvs : List String) (h : firstBad tvs = none) :
    ∃ b, tagFlagsCheck tvs = .ok b := by
  induction tvs with
  | nil => exact ⟨false, rfl⟩
  | cons t rest ih =>
    by_cases ht : t = "inline"
    · rw [firstBad, if_pos ht] at h
      obtain ⟨b, hb⟩ := ih h
      rw [tagFlagsCheck, if_pos ht, hb]
      exact ⟨true, rfl⟩
    · rw [firstBad, if_neg ht] at h
      cases h

theorem tagPrelude_skip (goName : String) (cfgTag : Option String)
    (canSet : Bool) (h : visitedField cfgTag canSet = false) :
    tagPrelude goName cfgTag canSet = .ok none := by
  rw [tagPrelude]
  cases hcs : canSet with
  | false => rw [if_pos (by simp [hcs])]
  | true =>
    rw [if_neg (by simp [hcs])]
    rw [visitedField, hcs] at h
    simp only [Bool.true_and] at h
    cases hsp : splitComma (cfgTag.getD "") with
    | nil => rfl
    | cons tv0 tvs =>
      rw [hsp] at h
      have h' : tv0 = "-" := by simpa using h
      dsimp only
      rw [if_pos h']

theorem tagPrelude_bad (goName : String) (cfgTag : Option String)
    (canSet : Bool) (flag : String)
    (hv : visitedField cfgTag canSet = true)
    (hb : firstBad (splitComma (cfgTag.getD "")).tail = some flag) :
    tagPrelude goName cfgTag canSet = .error ("unkown tag flag " ++ flag) := by
  rw [visitedField, Bool.and_eq_true] at hv
  rw [tagPrelude, if_neg (by simp [hv.1])]
  cases hsp : splitComma (cfgTag.getD "") with
  | nil => rw [hsp] at hv; cases hv.2
  | cons tv0 tvs =>
    rw [hsp] at hv hb
    have htv : ¬(tv0 = "-") := by simpa using hv.2
    dsimp only
    rw [if_neg htv]
    rw [tagFlagsCheck_bad tvs flag hb]

theorem tagPrelude_good (goName : String) (cfgTag : Option String)
    (canSet : Bool) (hv : visitedField cfgTag canSet = true)
    (hb : firstBad (splitComma (cfgTag.getD "")).tail = none) :
    ∃ fname inl, tagPrelude goName cfgTag canSet = .ok (some (fname, inl)) := by
  rw [visitedField, Bool.and_eq_true] at hv
  rw [tagPrelude, if_neg (by simp [hv.1])]
  cases hsp : splitComma (cfgTag.getD "") with
  | nil => rw [hsp] at hv; cases hv.2
  | cons tv0 tvs =>
    rw [hsp] at hv hb
    have htv : ¬(tv0 = "-") := by simpa using hv.2
    dsimp only
    rw [if_neg htv]
    obtain ⟨b, hbck⟩ := tagFlagsCheck_good tvs hb
    rw [hbck]
    exact ⟨_, b, rfl⟩

theorem preludeBad_some (cfgTag : Option String) (canSet : Bool)
    (flag : String) (h : preludeBad cfgTag canSet = some flag) :
    visitedField cfgTag canSet = true ∧
      firstBad (splitComma (cfgTag.getD "")).tail = some flag := by
  rw [preludeBad] at h
  by_cases hv : visitedField cfgTag canSet = true
  · rw [if_pos hv] at h
    exact ⟨hv, h⟩
  · rw [if_neg hv] at h
    cases h

theorem preludeBad_none (cfgTag : Option String) (canSet : Bool)
    (h : preludeBad cfgTag canSet = none) :
    visitedField cfgTag canSet = false ∨
      (visitedField cfgTag canSet = true ∧
        firstBad (splitComma (cfgTag.getD "")).tail = none) := by
  rw [preludeBad] at h
  by_cases hv : visitedField cfgTag canSet = true
  · rw [if_pos hv] at h
    exact Or.inr ⟨hv, h⟩
  · exact Or.inl (by simpa using hv)

theorem string_empty_append (s : String) : "" ++ s = s := by
  apply String.ext
  simp [String.data_append]

mutual
theorem collectBadF_spec (f : GoField) :
    (∀ flag, collectBadF f = some flag →
      ∃ m, fieldsOfF f = .error m ∧
        ∃ pre, m = pre ++ ("unkown tag flag " ++ flag)) ∧
    (collectBadF f = none → ∃ res, fieldsOfF f = .ok res) := by
  match f with
  | .basic goName cfgTag sepTag canSet =>
    constructor
    · intro flag h
      rw [collectBadF] at h
      obtain ⟨hv, hb⟩ := preludeBad_some cfgTag canSet flag h
      rw [fieldsOfF, tagPrelude_bad goName cfgTag canSet flag hv hb]
      exact ⟨_, rfl, "", (string_empty_append _).symm⟩
    · intro h
      rw [collectBadF] at h
      rcases preludeBad_none cfgTag canSet h with hv | ⟨hv, hb⟩
      · rw [fieldsOfF, tagPrelude_skip goName cfgTag canSet hv]
        exact ⟨none, rfl⟩
      · obtain ⟨fname, inl, hp⟩ := tagPrelude_good goName cfgTag canSet hv hb
        rw [fieldsOfF, hp]
        exact ⟨_, rfl⟩
  | .unsupported goName cfgTag sepTag canSet =>
    constructor
    · intro flag h
      rw [collectBadF] at h
      obtain ⟨hv, hb⟩ := preludeBad_some cfgTag canSet flag h
      rw [fieldsOfF, tagPrelude_bad goName cfgTag canSet flag hv hb]
      exact ⟨_, rfl, "", (string_empty_append _).symm⟩
    · intro h
      rw [collectBadF] at h
      rcases preludeBad_none cfgTag canSet h with hv | ⟨hv, hb⟩
      · rw [fieldsOfF, tagPrelude_skip goName cfgTag canSet hv]
        exact ⟨none, rfl⟩
      · obtain ⟨fname, inl, hp⟩ := tagPrelude_good goName cfgTag canSet hv hb
        rw [fieldsOfF, hp]
        exact ⟨none, rfl⟩
  | .unnamedStruct goName cfgTag sepTag canSet =>
    constructor
    · intro flag h
      rw [collectBadF] at h
      obtain ⟨hv, hb⟩ := preludeBad_some cfgTag canSet flag h
      rw [fieldsOfF, tagPrelude_bad goName cfgTag canSet flag hv hb]
      exact ⟨_, rfl, "", (string_empty_append _).symm⟩
    · intro h
      rw [collectBadF] at h
      rcases preludeBad_none cfgTag canSet h with hv | ⟨hv, hb⟩
      · rw [fieldsOfF, tagPrelude_skip goName cfgTag canSet hv]
        exact ⟨none, rfl⟩
      · obtain ⟨fname, inl, hp⟩ := tagPrelude_good goName cfgTag canSet hv hb
        rw [fieldsOfF, hp]
        exact ⟨none, rfl⟩
  | .namedStruct goName cfgTag sepTag canSet anonymous children =>
    have hsub := collectBad_spec children
    constructor
    · intro flag h
      rw [collectBadF] at h
      cases hpb : preludeBad cfgTag canSet with
      | some flag' =>
        rw [hpb] at h
        cases h
        obtain ⟨hv, hb⟩ := preludeBad_some cfgTag canSet flag hpb
        rw [fieldsOfF, tagPrelude_bad goName cfgTag canSet flag hv hb]
        exact ⟨_, rfl, "", (string_empty_append _).symm⟩
      | none =>
        rw [hpb] at h
        by_cases hcond : (visitedField cfgTag canSet && anonymous) = true
        · rw [if_pos hcond] at h
          rw [Bool.and_eq_true] at hcond
          rcases preludeBad_none cfgTag canSet hpb with hv | ⟨hv, hb⟩
          · rw [hv] at hcond
            cases hcond.1
          · obtain ⟨fname, inl, hp⟩ := tagPrelude_good goName cfgTag canSet hv hb
            obtain ⟨m, hm, pre, hpre⟩ := hsub.1 flag h
            rw [fieldsOfF, hp]
            dsimp only
            rw [if_pos hcond.2, hm]
            refine ⟨_, rfl, fname ++ ": " ++ pre, ?_⟩
            rw [hpre]
            simp [String.append_assoc]
        · rw [if_neg hcond] at h
          cases h
    · intro h
      rw [collectBadF] at h
      cases hpb : preludeBad cfgTag canSet with
      | some flag' => rw [hpb] at h; cases h
      | none =>
        rw [hpb] at h
        rcases preludeBad_none cfgTag canSet hpb with hv | ⟨hv, hb⟩
        · rw [fieldsOfF, tagPrelude_skip goName cfgTag canSet hv]
          exact ⟨none, rfl⟩
        · obtain ⟨fname, inl, hp⟩ := tagPrelude_good goName cfgTag canSet hv hb
          rw [fieldsOfF, hp]
          dsimp only
          by_cases han : anonymous = true
          · have hcond : (visitedField cfgTag canSet && anonymous) = true := by
              rw [hv, han]; rfl
            rw [if_pos hcond] at h
            obtain ⟨sub, hok⟩ := hsub.2 h
            rw [if_pos han, hok]
            exact ⟨_, rfl⟩
          · rw [if_neg han]
            exact ⟨_, rfl⟩

theorem collectBad_spec (fs : List GoField) :
    (∀ flag, collectBad fs = some flag →
      ∃ m, fieldsOf fs = .error m ∧
        ∃ pre, m = pre ++ ("unkown tag flag " ++ flag)) ∧
    (collectBad fs = none → ∃ res, fieldsOf fs = .ok res) := by
  match fs with
  | [] =>
    constructor
    · intro flag h
      cases h
    · intro _
      exact ⟨[], rfl⟩
  | f :: fs =>
    have hF := collectBadF_spec f
    have hL := collectBad_spec fs
    constructor
    · intro flag h
      rw [collectBad] at h
      cases hcf : collectBadF f with
      | some flag' =>
        rw [hcf] at h
        cases h
        obtain ⟨m, hm, pre, hpre⟩ := hF.1 flag hcf
        rw [fieldsOf, hm]
        exact ⟨m, rfl, pre, hpre⟩
      | none =>
        rw [hcf] at h
        obtain ⟨m, hm, pre, hpre⟩ := hL.1 flag h
        obtain ⟨res, hok⟩ := hF.2 hcf
        rw [fieldsOf, hok]
        cases res with
        | none => exact ⟨m, hm, pre, hpre⟩
        | some mf =>
          rw [hm]
          exact ⟨m, rfl, pre, hpre⟩
    · intro h
      rw [collectBad] at h
      cases hcf : collectBadF f with
      | some flag' => rw [hcf] at h; cases h
      | none =>
        rw [hcf] at h
        obtain ⟨res, hok⟩ := hF.2 hcf
        obtain ⟨rest, hrest⟩ := hL.2 h
        rw [fieldsOf, hok]
        cases res with
        | none => exact ⟨rest, hrest⟩
        | some mf =>
          rw [hrest]
          exact ⟨mf :: rest, rfl⟩
end

end structs

/-- C6: whenever a struct field visited by `fieldsOf` (settable and not
discarded by a `-` key) carries a comma-delimited `cfg` tag flag other than
`inline`, field-tree construction fails with an error whose message names
the offending flag (`unkown tag flag <flag>`, possibly wrapped in field-name
prefixes); a record with no such flag builds without error; and the flag
`inline` is accepted and marks the embedded struct as inlined. -/
theorem fieldsOf_unknown_tag_flag :
    (∀ (fs : List structs.GoField) (flag : String),
      structs.collectBad fs = some flag →
      ∃ m, structs.fieldsOf fs = .error m ∧
        ∃ pre, m = pre ++ ("unkown tag flag " ++ flag)) ∧
    (∀ fs : List structs.GoField, structs.collectBad fs = none →
      ∃ res, structs.fieldsOf fs = .ok res) ∧
    (∀ (goName sepTag : String) (children : List structs.GoField)
        (sub : List structs.MField),
      structs.fieldsOf children = .ok sub →
      structs.fieldsOfF (.namedStruct goName (some "grp,inline") sepTag true
          true children) =
        .ok (some (.emb "grp" true sub sepTag.data))) := by
  refine ⟨fun fs flag h => (structs.collectBad_spec fs).1 flag h,
    fun fs h => (structs.collectBad_spec fs).2 h,
    fun goName sepTag children sub h => ?_⟩
  have hp : structs.tagPrelude goName (some "grp,inline") true =
      .ok (some ("grp", true)) := rfl
  rw [structs.fieldsOfF, hp]
  dsimp only
  rw [if_pos rfl, h]

/-- C6 witness: a field tagged `x,bogus` fails construction with a message
naming `bogus`; the same struct without the flag builds; an embedded struct
tagged `grp,inline` comes out inlined under the name `grp`. -/
theorem fieldsOf_unknown_tag_flag_witness :
    (∃ m, structs.fieldsOf [.basic "A" (some "x,bogus") "" true] =
        .error m ∧ ∃ pre, m = pre ++ ("unkown tag flag " ++ "bogus")) ∧
    (∃ res, structs.fieldsOf [.basic "A" (some "x") "" true] = .ok res) ∧
    structs.fieldsOfF (.namedStruct "G" (some "grp,inline") "" true true
        [.basic "B" none "" true]) =
      .ok (some (.emb "grp" true [.plain "B" []] [])) :=
  ⟨fieldsOf_unknown_tag_flag.1 [.basic "A" (some "x,bogus") "" true] "bogus"
    (by rfl),
   fieldsOf_unknown_tag_flag.2.1 [.basic "A" (some "x") "" true] (by rfl),
   fieldsOf_unknown_tag_flag.2.2 "G" "" [.basic "B" none "" true]
    [.plain "B" []] (by rfl)⟩

/-! ### Lemmas about `structs.Set` -/

/-- C9: `structs.Set` with a nil value resets a settable value to the zero
value of its declared type and returns no error; on a non-settable value it
returns the cannot-set error before any mutation, for every argument. -/
theorem Set_nil_resets_and_cannotSet
    (unm : structs.RValue → String → structs.RValue × Option String)
    (value : structs.RValue) :
    (value.canSet = true →
      structs.Set unm value .nilArg =
        ({ value with val := value.kind.zero }, none)) ∧
    (value.canSet = false → ∀ arg,
      structs.Set unm value arg = (value, some "cannot set value")) := by
  constructor
  · intro h
    simp [structs.Set, h]
  · intro h arg
    simp [structs.Set, h]

/-- C9 witness: a settable int value 5 is reset to 0 by a nil assignment; a
non-settable value is left as is with the cannot-set error. -/
theorem Set_nil_resets_witness :
    structs.Set (fun v _ => (v, none)) ⟨true, .kInt, .vInt 5⟩ .nilArg =
        (⟨true, .kInt, .vInt 0⟩, none) ∧
      structs.Set (fun v _ => (v, none)) ⟨false, .kInt, .vInt 5⟩ .nilArg =
        (⟨false, .kInt, .vInt 5⟩, some "cannot set value") :=
  ⟨(Set_nil_resets_and_cannotSet (fun v _ => (v, none)) ⟨true, .kInt, .vInt 5⟩).1 rfl,
   (Set_nil_resets_and_cannotSet (fun v _ => (v, none)) ⟨false, .kInt, .vInt 5⟩).2
     rfl .nilArg⟩

/-! ### Lemmas about `ioEncode` (fromio.go) -/

theorem StoreM.set_fresh (st : StoreM) (ks : List String) (v : Int)
    (h : ks ∉ st.entries.map Prod.fst) :
    st.set ks v = ⟨st.entries ++ [(ks, v)], st.comments⟩ := by
  have hany : st.entries.any (fun p => p.1 == ks) = false := by
    rw [Bool.eq_false_iff]
    intro hx
    simp only [List.any_eq_true, beq_iff_eq] at hx
    obtain ⟨p, hp, he⟩ := hx
    exact h (he ▸ List.mem_map_of_mem Prod.fst hp)
  rw [StoreM.set, if_neg (by simp [hany])]

mutual
theorem ioEncodeF_spec (keys : List String) (st : StoreM) (f : IoField)
    (h : (st.entries.map Prod.fst ++ (specEntriesF keys f).map Prod.fst).Nodup) :
    ioEncodeF keys st f = ⟨st.entries ++ specEntriesF keys f, st.comments⟩ := by
  cases f with
  | leaf name tagv v usage =>
    by_cases hsk : storeSkip tagv = true
    · rw [ioEncodeF, if_pos hsk, specEntriesF, if_pos hsk]
      simp
    · replace hsk : storeSkip tagv = false := by
        cases hx : storeSkip tagv
        · rfl
        · exact absurd hx hsk
      rw [ioEncodeF, if_neg (by simp [hsk]), specEntriesF, if_neg (by simp [hsk])]
      rw [specEntriesF, if_neg (by simp [hsk])] at h
      refine StoreM.set_fresh st (keys ++ [name]) v ?_
      intro hm
      rcases List.nodup_append.mp h with ⟨_, _, hdisj⟩
      exact hdisj hm (by simp)
  | group name tagv inlined children =>
    by_cases hsk : storeSkip tagv = true
    · rw [ioEncodeF, if_pos hsk, specEntriesF, if_pos hsk]
      simp
    · replace hsk : storeSkip tagv = false := by
        cases hx : storeSkip tagv
        · rfl
        · exact absurd hx hsk
      have hns : ¬(storeSkip tagv = true) := by simp [hsk]
      rw [ioEncodeF, if_neg hns, specEntriesF, if_neg hns]
      rw [specEntriesF, if_neg hns] at h
      exact ioEncodeL_spec _ st children h

theorem ioEncodeL_spec (keys : List String) (st : StoreM) (fs : List IoField)
    (h : (st.entries.map Prod.fst ++ (specEntriesL keys fs).map Prod.fst).Nodup) :
    ioEncodeL keys st fs = ⟨st.entries ++ specEntriesL keys fs, st.comments⟩ := by
  cases fs with
  | nil =>
    rw [ioEncodeL, specEntriesL]
    simp
  | cons f fs =>
    rw [specEntriesL] at h
    have h1 : (st.entries.map Prod.fst ++ (specEntriesF keys f).map Prod.fst).Nodup := by
      refine List.Nodup.sublist ?_ h
      simp only [List.map_append, ← List.append_assoc]
      exact List.sublist_append_left _ _
    rw [ioEncodeL, ioEncodeF_spec keys st f h1]
    have h2 := ioEncodeL_spec keys ⟨st.entries ++ specEntriesF keys f, st.comments⟩ fs
      (by simpa [List.append_assoc] using h)
    rw [h2, specEntriesL]
    simp
end

/-- C7 (amended): on the first-run path — no existing source stream but a
write destination — a fresh store is created and populated with the current
value of every field not skipped by the store's tag, under its flattened key
path, and the save path completes without error; no per-field comment is
attached (the `Store` contract exposes no comment operation — its
`SetComments` is a TODO — and `ioEncode` never reads the usage text). -/
theorem ioSave_fresh_synthesis (root : List IoField)
    (h : ((specEntriesL [] root).map Prod.fst).Nodup) :
    ioSaveFresh root = ⟨specEntriesL [] root, []⟩ := by
  rw [ioSaveFresh, ioEncodeL_spec [] ⟨[], []⟩ root (by simpa using h)]
  simp

/-- C7 counterexample: the claim as stated requires the per-field comment to
be stored; for a record whose only field `Port` (value 80) carries the
nonempty usage text `Listening port.`, the synthesized store holds the
field's value but an empty comment set. -/
theorem ioSave_fresh_no_comment_counterexample :
    ioSaveFresh [.leaf "Port" "" 80 "Listening port."] =
        ⟨[(["Port"], 80)], []⟩ ∧ "Listening port." ≠ "" :=
  ⟨rfl, by decide⟩

/-- C7 witness: the synthesis theorem applied to a record with a kept field,
a tag-skipped field and a nested group. -/
theorem ioSave_fresh_synthesis_witness :
    ioSaveFresh
        [.leaf "Port" "" 80 "", .leaf "Name" "-" 1 "",
         .group "Log" "" false [.leaf "Level" "" 3 ""]] =
      ⟨specEntriesL []
        [.leaf "Port" "" 80 "", .leaf "Name" "-" 1 "",
         .group "Log" "" false [.leaf "Level" "" 3 ""]], []⟩ :=
  ioSave_fresh_synthesis _ (by decide)

end Construct
